import Mathlib

/-!
Verification development for the resumable, rate-limited chunk-processing
pipeline of the Cookbook repository (long-document multi-agent analysis).
The pipeline itself (`analyze_house_bill_save_progress.py`, described by the
repository's README for the House Bill / Groq example) is not shipped in the
repository snapshot; following the specification, its components —
Chunker, RateGovernor, StageGraph, CheckpointStore and the Pipeline
orchestrator — are modelled here as executable Lean definitions, and the
stated properties are proved about the model.  The `AgentRearrange` flow
strings that the shipped notebooks do contain are modelled directly from the
notebook source.
-/

set_option autoImplicit false
set_option maxRecDepth 100000

deriving instance DecidableEq for Except

namespace Cookbook

/-! ## Chunker -/

/-- A chunk of a document: contiguous slice with a stable index.
Modelled from the spec: `Chunk = {index, offset, length, text}`. -/
structure Chunk where
  index : Nat
  offset : Nat
  length : Nat
  text : List Char
deriving DecidableEq, Repr

/-- Errors of `Chunker.split`. Modelled from the spec:
`InvalidConfig` for a non-positive `max_chunk_size`, `EmptyDocument` for a
document of zero length (the pipeline script is absent from the snapshot). -/
inductive ChunkError where
  | InvalidConfig : ChunkError
  | EmptyDocument : ChunkError
deriving DecidableEq, Repr

/-- Modelled from the spec: fixed-rule splitting of the document's linear
text into maximal pieces of at most `maxSize` units, indices assigned by
position.  `fuel` bounds the recursion (callers pass the document length,
which suffices whenever `maxSize ≥ 1`). -/
def chunkAux (maxSize : Nat) : Nat → List Char → Nat → Nat → List Chunk
  | 0, _, _, _ => []
  | _, [], _, _ => []
  | fuel + 1, text, idx, off =>
      let piece := text.take maxSize
      { index := idx, offset := off, length := piece.length, text := piece } ::
        chunkAux maxSize fuel (text.drop maxSize) (idx + 1) (off + piece.length)

namespace Chunker

/-- Modelled from the spec: `split(document, max_chunk_size)` — fails with
`InvalidConfig` if `max_chunk_size ≤ 0`, with `EmptyDocument` if the document
has zero length, and otherwise deterministically cuts the document into
bounded chunks with contiguous indices starting at 0. -/
def split (doc : List Char) (maxChunkSize : Int) : Except ChunkError (List Chunk) :=
  if maxChunkSize ≤ 0 then .error .InvalidConfig
  else if doc.length = 0 then .error .EmptyDocument
  else .ok (chunkAux maxChunkSize.toNat doc.length doc 0 0)

end Chunker

/-! ## RateGovernor -/

/-- Configuration of the rate governor (token/request ceilings per window).
Modelled from the spec's configuration surface. -/
structure GovConfig where
  tokenCeiling : Nat
  requestCeiling : Nat
  windowDuration : Nat
deriving DecidableEq, Repr

/-- The budget window state. Modelled from the spec:
`{window_start_time, tokens_consumed, requests_consumed}`. -/
structure BudgetWindow where
  windowStart : Nat
  tokensConsumed : Nat
  requestsConsumed : Nat
deriving DecidableEq, Repr

/-- Admission decision of the rate governor. -/
inductive Decision where
  | allow : Decision
  | wait : Nat → Decision
deriving DecidableEq, Repr

/-- Modelled from the spec: both counters reset atomically when the current
time exceeds `window_start_time + window_duration`. -/
def rollWindow (cfg : GovConfig) (now : Nat) (w : BudgetWindow) : BudgetWindow :=
  if w.windowStart + cfg.windowDuration < now then
    { windowStart := now, tokensConsumed := 0, requestsConsumed := 0 }
  else w

/-- Modelled from the spec: `admit(estimated_tokens)` returns
`wait(remaining window time)` when adding the estimate would push either
counter past its ceiling, and otherwise allows the call and charges both
counters. -/
def admitCall (cfg : GovConfig) (now : Nat) (est : Nat) (w : BudgetWindow) :
    Decision × BudgetWindow :=
  let w' := rollWindow cfg now w
  if cfg.tokenCeiling < w'.tokensConsumed + est ∨
      cfg.requestCeiling < w'.requestsConsumed + 1 then
    (Decision.wait (w'.windowStart + cfg.windowDuration - now), w')
  else
    (Decision.allow,
      { w' with tokensConsumed := w'.tokensConsumed + est,
                requestsConsumed := w'.requestsConsumed + 1 })

/-- One line of the admission log: the request's time and token estimate,
the decision, and the start time of the window the decision was charged to. -/
structure AdmitLogEntry where
  time : Nat
  est : Nat
  decision : Decision
  window : Nat
deriving DecidableEq, Repr

/-- Run a whole trace of `(time, estimate)` admission requests through the
governor, logging each decision together with the window it was charged to. -/
def runAdmits (cfg : GovConfig) : List (Nat × Nat) → BudgetWindow →
    List AdmitLogEntry × BudgetWindow
  | [], w => ([], w)
  | (t, e) :: rest, w =>
      let p := admitCall cfg t e w
      let r := runAdmits cfg rest p.2
      ({ time := t, est := e, decision := p.1, window := p.2.windowStart } :: r.1, r.2)

/-- Total token estimate of the granted requests charged to the window that
started at `ws`. -/
def windowTokens (ws : Nat) (log : List AdmitLogEntry) : Nat :=
  log.foldr (fun e acc =>
    if e.decision = Decision.allow ∧ e.window = ws then e.est + acc else acc) 0

/-- Number of granted requests charged to the window that started at `ws`. -/
def windowRequests (ws : Nat) (log : List AdmitLogEntry) : Nat :=
  log.foldr (fun e acc =>
    if e.decision = Decision.allow ∧ e.window = ws then 1 + acc else acc) 0

/-! ## StageGraph -/

/-- A stage graph: the ordered list of phases, each a set of stage names run
concurrently.  Stages are pure data (name + prompt template); only the name
matters to the orchestrator. -/
structure StageGraph where
  phases : List (List String)
deriving DecidableEq, Repr

/-- Error of `StageGraph` construction. -/
inductive GraphError where
  | InvalidGraph : GraphError
deriving DecidableEq, Repr

/-- All stage names of a graph, phase by phase. -/
def stagesOf (phases : List (List String)) : List String :=
  phases.flatten

namespace StageGraph

/-- Modelled from the spec: construction validates that at least one phase
exists, that no phase is empty, and that every stage name is unique across
the whole graph; otherwise it fails with `InvalidGraph` (the pipeline script
is absent from the snapshot). -/
def mk' (phases : List (List String)) : Except GraphError StageGraph :=
  if phases ≠ [] ∧ (∀ ph ∈ phases, ph ≠ []) ∧ (stagesOf phases).Nodup then
    .ok { phases := phases }
  else .error .InvalidGraph

end StageGraph

/-! ## Flow strings of the shipped notebooks -/

/-- Split a character list at every occurrence of the two-character arrow
`->`; models how an `AgentRearrange` flow string lists its sequential steps. -/
def splitArrow : List Char → List (List Char)
  | [] => [[]]
  | '-' :: '>' :: xs => [] :: splitArrow xs
  | x :: xs =>
      match splitArrow xs with
      | [] => [[x]]
      | cur :: rest => (x :: cur) :: rest

/-- Split a character list at every occurrence of the character `c`. -/
def splitOnChar (c : Char) : List Char → List (List Char)
  | [] => [[]]
  | x :: xs =>
      match splitOnChar c xs with
      | [] => if x = c then [[], []] else [[x]]
      | cur :: rest => if x = c then [] :: cur :: rest else (x :: cur) :: rest

/-- Strip leading and trailing spaces. -/
def trimSpaces (l : List Char) : List Char :=
  ((l.dropWhile (· = ' ')).reverse.dropWhile (· = ' ')).reverse

/-- Parse an `AgentRearrange` flow string into phases: `->` separates the
sequential steps, `,` separates the agents run in parallel within a step.
Modelled from the notebooks' description of the flow ("process some tasks
sequentially while others run in parallel"). -/
def parseFlow (flow : String) : List (List String) :=
  (splitArrow flow.toList).map fun ph =>
    (splitOnChar ',' ph).map fun nm => String.mk (trimSpaces nm)

/-- The flow string defined in the finance 10-K notebook
(`swarms_finance_10k_analysis_agentrearrange.ipynb`, Step 3). -/
def financeFlow : String :=
  "FinancialStatementsExpert -> ManagementDiscussionReviewer, RiskAssessmentAnalyst, SummaryReportGenerator"

/-- The flow string defined in the physical-therapy notebook
(`swarms_diagnosis_treatment_extreme_athletics.ipynb`, Step 3). -/
def medicalFlow : String :=
  "SymptomAnalyzer -> H -> TreatmentAdvisor, RecoveryPlanner"

/-! ## CheckpointStore -/

/-- Modelled from the spec: `{last_completed_chunk_index, set of completed
(chunk_index, stage_name) pairs since then}`; the empty checkpoint carries
`last_completed_chunk_index = -1`. -/
structure Checkpoint where
  lastCompletedChunkIndex : Int
  completedPairs : List (Nat × String)
deriving DecidableEq, Repr

/-- The empty checkpoint returned by `load()` when none was saved yet. -/
def Checkpoint.empty : Checkpoint :=
  { lastCompletedChunkIndex := -1, completedPairs := [] }

/-- A `(chunk, stage)` pair counts as complete when the chunk lies at or
below the checkpoint pointer or the pair is in the completed set. -/
abbrev pairDone (cp : Checkpoint) (i : Nat) (s : String) : Prop :=
  (i : Int) ≤ cp.lastCompletedChunkIndex ∨ (i, s) ∈ cp.completedPairs

/-- Modelled from the spec: `recordCompletion(chunk_index, stage_name)`
durably appends the fact; idempotent. -/
def recordCompletion (cp : Checkpoint) (i : Nat) (s : String) : Checkpoint :=
  if (i, s) ∈ cp.completedPairs then cp
  else { cp with completedPairs := cp.completedPairs ++ [(i, s)] }

/-- Modelled from the spec: `advance(chunk_index)` records that all stages
for this and all lower indices are complete, compacting the per-stage set. -/
def advanceCp (cp : Checkpoint) (i : Nat) : Checkpoint :=
  { lastCompletedChunkIndex := (i : Int),
    completedPairs := cp.completedPairs.filter fun p => (i : Int) < (p.1 : Int) }

/-! ## Pipeline orchestrator -/

/-- Outcome of one invocation of the opaque external call for a
`(chunk, stage, attempt)` triple. -/
inductive CallOutcome where
  | success : String → CallOutcome
  | transient : String → CallOutcome
  | fatal : String → CallOutcome
deriving DecidableEq, Repr

/-- The opaque external call, as a function of chunk index, stage name and
attempt number.  `Throttled`/rate waits are abstracted away: they delay a
call but never change its outcome. -/
abbrev Oracle := Nat → String → Nat → CallOutcome

/-- A successful `(chunk, stage)` execution.  Modelled from the spec:
`{chunk_index, stage_name, output_text, completed_at}`. -/
structure TaskResult where
  chunk_index : Nat
  stage_name : String
  output_text : String
  completed_at : Nat
deriving DecidableEq, Repr

/-- Report of a permanent `(chunk, stage)` failure: chunk index, stage name,
attempt count and last error, as the spec's propagation policy requires. -/
structure FailureReport where
  chunkIndex : Nat
  stageName : String
  attempts : Nat
  lastError : String
deriving DecidableEq, Repr

/-- Observable events of a pipeline run: an external call being issued, a
completion being recorded, the checkpoint being advanced. -/
inductive Event where
  | invokeEv : Nat → String → Event
  | recordEv : Nat → String → Event
  | advanceEv : Nat → Event
deriving DecidableEq, Repr

/-- In-memory pipeline state.  `checkpoint` and `results` mirror durable
storage; `failures`, `events` and `clock` are per-run observations. -/
structure PipeState where
  checkpoint : Checkpoint
  results : List TaskResult
  failures : List FailureReport
  events : List Event
  clock : Nat
deriving DecidableEq, Repr

/-- Fresh state of a first run: empty checkpoint, nothing persisted. -/
def initState : PipeState :=
  { checkpoint := Checkpoint.empty, results := [], failures := [], events := [], clock := 0 }

/-- Restarting against the same persisted state: checkpoint and task results
are durable, the per-run logs start empty. -/
def resumeState (st : PipeState) : PipeState :=
  { checkpoint := st.checkpoint, results := st.results, failures := [],
    events := [], clock := st.clock }

/-- The bounded attempt loop for one `(chunk, stage)` pair: each attempt
issues one external call; retryable failures are retried until the attempt
budget is exhausted, fatal failures stop at once.  Returns the state, the
output on success, the attempts used, and the last error. -/
def attemptLoop (oracle : Oracle) (i : Nat) (s : String) :
    Nat → Nat → String → PipeState → PipeState × Option String × Nat × String
  | 0, a, lastErr, st => (st, none, a, lastErr)
  | n + 1, a, _, st =>
      let st1 : PipeState :=
        { st with events := st.events ++ [Event.invokeEv i s], clock := st.clock + 1 }
      match oracle i s a with
      | .success out => (st1, some out, a + 1, "")
      | .fatal err => (st1, none, a + 1, err)
      | .transient err => attemptLoop oracle i s n (a + 1) err st1

/-- Process one stage for one chunk: skip it when already recorded complete;
otherwise run the attempt loop, and either persist the `TaskResult` and
record completion, or report a permanent failure for this pair only. -/
def processStage (oracle : Oracle) (maxRetries : Nat) (i : Nat) (s : String)
    (st : PipeState) : PipeState :=
  if pairDone st.checkpoint i s then st
  else
    let r := attemptLoop oracle i s (maxRetries + 1) 0 "" st
    match r.2.1 with
    | some out =>
        { r.1 with
          results := r.1.results ++
            [{ chunk_index := i, stage_name := s, output_text := out,
               completed_at := r.1.clock }],
          checkpoint := recordCompletion r.1.checkpoint i s,
          events := r.1.events ++ [Event.recordEv i s] }
    | none =>
        { r.1 with
          failures := r.1.failures ++
            [{ chunkIndex := i, stageName := s, attempts := r.2.2.1,
               lastError := r.2.2.2 }] }

/-- Process the stages of one phase for one chunk, in listed order (the
within-phase order is unobservable to the properties proved here). -/
def processStages (oracle : Oracle) (maxRetries : Nat) (i : Nat) :
    List String → PipeState → PipeState
  | [], st => st
  | s :: rest, st => processStages oracle maxRetries i rest (processStage oracle maxRetries i s st)

/-- Process the phases of one chunk strictly in order: the next phase is
entered only when every stage of the current phase is recorded complete;
an incomplete phase halts this chunk's later phases. -/
def processPhases (oracle : Oracle) (maxRetries : Nat) (i : Nat) :
    List (List String) → PipeState → PipeState
  | [], st => st
  | ph :: rest, st =>
      let st1 := processStages oracle maxRetries i ph st
      if ∀ s ∈ ph, pairDone st1.checkpoint i s then
        processPhases oracle maxRetries i rest st1
      else st1

/-- Process one chunk: skip it entirely when at or below the checkpoint
pointer; otherwise run its phases, and advance the checkpoint exactly when
every stage of every phase is complete for it and the pointer sits at the
immediately preceding index (contiguous advance). -/
def processChunk (oracle : Oracle) (maxRetries : Nat) (graph : List (List String))
    (i : Nat) (st : PipeState) : PipeState :=
  if (i : Int) ≤ st.checkpoint.lastCompletedChunkIndex then st
  else
    let st1 := processPhases oracle maxRetries i graph st
    if (∀ ph ∈ graph, ∀ s ∈ ph, pairDone st1.checkpoint i s) ∧
        st1.checkpoint.lastCompletedChunkIndex = (i : Int) - 1 then
      { st1 with checkpoint := advanceCp st1.checkpoint i,
                 events := st1.events ++ [Event.advanceEv i] }
    else st1

/-- Run the pipeline over the chunk sequence. -/
def runPipeline (oracle : Oracle) (maxRetries : Nat) (graph : List (List String))
    (chunks : List Chunk) (st : PipeState) : PipeState :=
  chunks.foldl (fun st c => processChunk oracle maxRetries graph c.index st) st

/-- The checkpoint pointer after each chunk of the run, starting with the
initial state's pointer. -/
def checkpointTrace (oracle : Oracle) (maxRetries : Nat) (graph : List (List String))
    (chunks : List Chunk) (st : PipeState) : List Int :=
  ((chunks.scanl (fun st c => processChunk oracle maxRetries graph c.index st) st).map
    fun st => st.checkpoint.lastCompletedChunkIndex)

/-- The sequence of `advance` calls, in order, extracted from the event log. -/
def advanceCalls (evts : List Event) : List Nat :=
  evts.filterMap fun e =>
    match e with
    | .advanceEv i => some i
    | _ => none

/-- An oracle whose every call succeeds with the fixed output `out`. -/
def allSuccess (out : String) : Oracle := fun _ _ _ => .success out

/-- An oracle that fails fatally at the single pair `(i₀, s₀)` and succeeds
everywhere else. -/
def fatalAt (i₀ : Nat) (s₀ : String) (err out : String) : Oracle :=
  fun i s _ => if i = i₀ ∧ s = s₀ then .fatal err else .success out

/-- Checkpoint/event-log consistency: every completed pair of a graph stage
has a recorded completion event in the log. -/
def Recorded (graph : List (List String)) (st : PipeState) : Prop :=
  ∀ i s, s ∈ stagesOf graph → pairDone st.checkpoint i s →
    Event.recordEv i s ∈ st.events

/-- Contiguous-advance safety over an event log: whenever `advance(i)` is
performed, every stage of every chunk at or below `i` already has its
completion recorded strictly earlier in the log. -/
def AdvanceSafe (graph : List (List String)) (evts : List Event) : Prop :=
  ∀ pre post i, evts = pre ++ Event.advanceEv i :: post →
    ∀ j s, j ≤ i → s ∈ stagesOf graph → Event.recordEv j s ∈ pre

/-- Phase-ordering safety over an event log: a stage of phase `p+1` is
invoked for a chunk only after every stage of phase `p` has its completion
recorded strictly earlier in the log for that chunk. -/
def InvokeSafe (graph : List (List String)) (evts : List Event) : Prop :=
  ∀ pre post i s, evts = pre ++ Event.invokeEv i s :: post →
    ∀ p ph ph', graph[p]? = some ph → graph[p + 1]? = some ph' → s ∈ ph' →
    ∀ t ∈ ph, Event.recordEv i t ∈ pre

/-- The bundle of run invariants preserved by every pipeline operation. -/
def PipeInv (graph : List (List String)) (st : PipeState) : Prop :=
  Recorded graph st ∧ InvokeSafe graph st.events ∧ AdvanceSafe graph st.events

/-! ## Chunker lemmas -/

lemma chunkAux_map_index : ∀ (fuel m : Nat) (t : List Char) (idx off : Nat),
    (chunkAux m fuel t idx off).map Chunk.index =
      List.range' idx (chunkAux m fuel t idx off).length := by
  intro fuel
  induction fuel with
  | zero => intro m t idx off; simp [chunkAux]
  | succ f ih =>
      intro m t idx off
      cases t with
      | nil => simp [chunkAux]
      | cons c cs =>
          simp only [chunkAux, List.map_cons, List.length_cons]
          rw [List.range'_succ, ih]

/-- C6 (Chunker determinism): repeated calls of `split` on the same document
with the same `max_chunk_size` agree, and a successful split assigns
contiguous indices `0, 1, …` by position. -/
theorem chunker_split_deterministic (doc : List Char) (m : Int) :
    Chunker.split doc m = Chunker.split doc m ∧
    ∀ cs, Chunker.split doc m = .ok cs → cs.map Chunk.index = List.range cs.length := by
  refine ⟨rfl, fun cs h => ?_⟩
  unfold Chunker.split at h
  split at h
  · exact absurd h (by simp)
  · split at h
    · exact absurd h (by simp)
    · rw [List.range_eq_range']
      obtain rfl : chunkAux m.toNat doc.length doc 0 0 = cs := by
        simpa using h
      exact chunkAux_map_index doc.length m.toNat doc 0 0

/-- Witness for C6 at a concrete three-character document. -/
theorem chunker_split_deterministic_witness :
    [Chunk.mk 0 0 2 ['a', 'b'], Chunk.mk 1 2 1 ['c']].map Chunk.index = List.range 2 :=
  (chunker_split_deterministic ['a', 'b', 'c'] 2).2 _ (by decide)

/-- C9 counterexample: at the empty document with `max_chunk_size = 0` the
document has zero length, yet `split` fails with `InvalidConfig`, not with
`EmptyDocument` — so "fails with `EmptyDocument` iff the document has zero
length" is false as stated. -/
theorem chunker_empty_vs_invalid_counterexample :
    ¬ (Chunker.split [] 0 = .error .EmptyDocument ↔ ([] : List Char).length = 0) := by
  decide

/-- C9 (amended): `StageGraph` construction succeeds iff there is at least
one phase, no phase is empty, and all stage names are unique, failing with
`InvalidGraph` otherwise; `Chunker.split` fails with `InvalidConfig` iff
`max_chunk_size ≤ 0`, and fails with `EmptyDocument` iff `max_chunk_size`
is valid and the document has zero length (config validation precedes the
empty-document check). -/
theorem graph_and_chunker_validation :
    (∀ ps : List (List String),
      ((∃ g, StageGraph.mk' ps = .ok g) ↔
        (ps ≠ [] ∧ (∀ ph ∈ ps, ph ≠ []) ∧ (stagesOf ps).Nodup)) ∧
      (¬ (ps ≠ [] ∧ (∀ ph ∈ ps, ph ≠ []) ∧ (stagesOf ps).Nodup) →
        StageGraph.mk' ps = .error .InvalidGraph)) ∧
    (∀ (doc : List Char) (m : Int),
      (Chunker.split doc m = .error .InvalidConfig ↔ m ≤ 0) ∧
      (Chunker.split doc m = .error .EmptyDocument ↔ (0 < m ∧ doc.length = 0))) := by
  constructor
  · intro ps
    constructor
    · unfold StageGraph.mk'
      split
      · rename_i hcond
        exact ⟨fun _ => hcond, fun _ => ⟨_, rfl⟩⟩
      · rename_i hcond
        constructor
        · rintro ⟨g, hg⟩; cases hg
        · intro h; exact absurd h hcond
    · intro h
      unfold StageGraph.mk'
      split
      · rename_i hcond; exact absurd hcond h
      · rfl
  · intro doc m
    by_cases hm : m ≤ 0
    · constructor
      · simp [Chunker.split, hm]
      · simp [Chunker.split, hm]
    · by_cases hd : doc.length = 0
      · constructor
        · simp [Chunker.split, hm, hd]
        · simp [Chunker.split, hm, hd]
          omega
      · constructor
        · simp [Chunker.split, hm, hd]
        · simp [Chunker.split, hm, hd]

/-- Witness for C9's amended theorem: a positive `max_chunk_size` with an
empty document indeed fails with `EmptyDocument`. -/
theorem graph_and_chunker_validation_witness :
    Chunker.split [] 3 = .error .EmptyDocument :=
  (graph_and_chunker_validation.2 [] 3).2.mpr (by decide)

/-! ## Scenario: 250-unit document, `max_chunk_size = 100` -/

/-- C8: splitting a 250-unit document at `max_chunk_size = 100` yields three
chunks of lengths 100, 100, 50 with indices 0, 1, 2, and running the
pipeline over them with phases `{A, B}` then `{C}` produces exactly nine
`TaskResult`s and calls `advance` exactly three times, in the order
0, 1, 2. -/
theorem scenario_document_250 :
    (Chunker.split (List.replicate 250 'a') 100).toOption.map (fun cs =>
      (cs.map Chunk.length, cs.map Chunk.index,
        (runPipeline (allSuccess "ok") 2 [["A", "B"], ["C"]] cs initState).results.length,
        advanceCalls
          (runPipeline (allSuccess "ok") 2 [["A", "B"], ["C"]] cs initState).events)) =
    some ([100, 100, 50], [0, 1, 2], 9, [0, 1, 2]) := by
  decide

/-! ## RateGovernor lemmas -/

lemma admit_snd_windowStart (cfg : GovConfig) (now est : Nat) (w : BudgetWindow) :
    ((admitCall cfg now est w).2).windowStart = (rollWindow cfg now w).windowStart := by
  unfold admitCall
  dsimp only
  split <;> rfl

lemma windowStart_le_rollWindow (cfg : GovConfig) (now : Nat) (w : BudgetWindow) :
    w.windowStart ≤ (rollWindow cfg now w).windowStart := by
  unfold rollWindow
  split
  · rename_i h; dsimp only; omega
  · exact Nat.le_refl _

lemma admit_tokens_bound (cfg : GovConfig) (now est : Nat) (w : BudgetWindow)
    (h : w.tokensConsumed ≤ cfg.tokenCeiling) :
    ((admitCall cfg now est w).2).tokensConsumed ≤ cfg.tokenCeiling := by
  unfold admitCall rollWindow
  dsimp only
  split_ifs <;> simp_all

lemma admit_requests_bound (cfg : GovConfig) (now est : Nat) (w : BudgetWindow)
    (h : w.requestsConsumed ≤ cfg.requestCeiling) :
    ((admitCall cfg now est w).2).requestsConsumed ≤ cfg.requestCeiling := by
  unfold admitCall rollWindow
  dsimp only
  split_ifs <;> simp_all
  omega

lemma windowTokens_cons (ws : Nat) (e : AdmitLogEntry) (log : List AdmitLogEntry) :
    windowTokens ws (e :: log) =
      if e.decision = Decision.allow ∧ e.window = ws then e.est + windowTokens ws log
      else windowTokens ws log := rfl

lemma windowRequests_cons (ws : Nat) (e : AdmitLogEntry) (log : List AdmitLogEntry) :
    windowRequests ws (e :: log) =
      if e.decision = Decision.allow ∧ e.window = ws then 1 + windowRequests ws log
      else windowRequests ws log := rfl

lemma windowTokens_eq_zero (ws : Nat) (log : List AdmitLogEntry)
    (h : ∀ e ∈ log, ws < e.window) : windowTokens ws log = 0 := by
  induction log with
  | nil => rfl
  | cons e l ih =>
      rw [windowTokens_cons]
      have he := h e (List.mem_cons_self e l)
      rw [if_neg (by intro hc; omega)]
      exact ih fun x hx => h x (List.mem_cons_of_mem e hx)

lemma windowRequests_eq_zero (ws : Nat) (log : List AdmitLogEntry)
    (h : ∀ e ∈ log, ws < e.window) : windowRequests ws log = 0 := by
  induction log with
  | nil => rfl
  | cons e l ih =>
      rw [windowRequests_cons]
      have he := h e (List.mem_cons_self e l)
      rw [if_neg (by intro hc; omega)]
      exact ih fun x hx => h x (List.mem_cons_of_mem e hx)

lemma runAdmits_window_ge (cfg : GovConfig) :
    ∀ (trace : List (Nat × Nat)) (w : BudgetWindow),
      (∀ p ∈ trace, w.windowStart ≤ p.1) →
      (trace.map Prod.fst).Pairwise (· ≤ ·) →
      ∀ e ∈ (runAdmits cfg trace w).1, w.windowStart ≤ e.window := by
  intro trace
  induction trace with
  | nil => intro w _ _ e he; simp [runAdmits] at he
  | cons p rest ih =>
      obtain ⟨t, est⟩ := p
      intro w hts hmono e he
      rw [List.map_cons, List.pairwise_cons] at hmono
      have htw : w.windowStart ≤ t := hts (t, est) (List.mem_cons_self _ _)
      have hws : w.windowStart ≤ ((admitCall cfg t est w).2).windowStart := by
        rw [admit_snd_windowStart]
        exact windowStart_le_rollWindow cfg t w
      have hwt : ((admitCall cfg t est w).2).windowStart ≤ t ∨
          ((admitCall cfg t est w).2).windowStart = w.windowStart := by
        rw [admit_snd_windowStart]
        unfold rollWindow
        split
        · exact Or.inl (Nat.le_refl _)
        · exact Or.inr rfl
      simp only [runAdmits] at he
      rcases List.mem_cons.mp he with hhead | htail
      · subst hhead; exact hws
      · refine Nat.le_trans hws (ih ((admitCall cfg t est w).2) ?_ hmono.2 e htail)
        intro q hq
        rcases hwt with h1 | h1
        · refine Nat.le_trans h1 ?_
          have := hmono.1 q.1 (List.mem_map.mpr ⟨q, hq, rfl⟩)
          exact this
        · rw [h1]; exact hts q (List.mem_cons_of_mem _ hq)

lemma rollWindow_cases (cfg : GovConfig) (now : Nat) (w : BudgetWindow) :
    (w.windowStart + cfg.windowDuration < now ∧
      (rollWindow cfg now w).windowStart = now ∧
      (rollWindow cfg now w).tokensConsumed = 0 ∧
      (rollWindow cfg now w).requestsConsumed = 0) ∨
    (¬ w.windowStart + cfg.windowDuration < now ∧ rollWindow cfg now w = w) := by
  unfold rollWindow
  split
  · exact Or.inl ⟨by assumption, rfl, rfl, rfl⟩
  · exact Or.inr ⟨by assumption, rfl⟩

lemma admit_counters (cfg : GovConfig) (now est : Nat) (w : BudgetWindow) :
    ((admitCall cfg now est w).1 = Decision.allow ∧
      ((admitCall cfg now est w).2).tokensConsumed =
        (rollWindow cfg now w).tokensConsumed + est ∧
      ((admitCall cfg now est w).2).requestsConsumed =
        (rollWindow cfg now w).requestsConsumed + 1) ∨
    ((admitCall cfg now est w).1 ≠ Decision.allow ∧
      ((admitCall cfg now est w).2).tokensConsumed = (rollWindow cfg now w).tokensConsumed ∧
      ((admitCall cfg now est w).2).requestsConsumed = (rollWindow cfg now w).requestsConsumed) := by
  unfold admitCall
  dsimp only
  split
  · exact Or.inr ⟨by simp, rfl, rfl⟩
  · exact Or.inl ⟨rfl, rfl, rfl⟩

lemma runAdmits_window_bound (cfg : GovConfig) :
    ∀ (trace : List (Nat × Nat)) (w : BudgetWindow),
      (∀ p ∈ trace, w.windowStart ≤ p.1) →
      (trace.map Prod.fst).Pairwise (· ≤ ·) →
      w.tokensConsumed ≤ cfg.tokenCeiling →
      w.requestsConsumed ≤ cfg.requestCeiling →
      ∀ ws,
        windowTokens ws (runAdmits cfg trace w).1 +
            (if ws = w.windowStart then w.tokensConsumed else 0) ≤ cfg.tokenCeiling ∧
        windowRequests ws (runAdmits cfg trace w).1 +
            (if ws = w.windowStart then w.requestsConsumed else 0) ≤ cfg.requestCeiling := by
  intro trace
  induction trace with
  | nil =>
      intro w _ _ htok hreq ws
      constructor
      · simp only [runAdmits, windowTokens, List.foldr_nil]
        split <;> omega
      · simp only [runAdmits, windowRequests, List.foldr_nil]
        split <;> omega
  | cons p rest ih =>
      obtain ⟨t, est⟩ := p
      intro w hts hmono htok hreq ws
      rw [List.map_cons, List.pairwise_cons] at hmono
      have htw : w.windowStart ≤ t := hts (t, est) (List.mem_cons_self _ _)
      have hrest : ∀ q ∈ rest, ((admitCall cfg t est w).2).windowStart ≤ q.1 := by
        intro q hq
        rw [admit_snd_windowStart]
        rcases rollWindow_cases cfg t w with ⟨_, hrws, _, _⟩ | ⟨_, hr⟩
        · rw [hrws]
          exact hmono.1 q.1 (List.mem_map.mpr ⟨q, hq, rfl⟩)
        · rw [hr]
          exact hts q (List.mem_cons_of_mem _ hq)
      obtain ⟨hb1, hb2⟩ := ih ((admitCall cfg t est w).2) hrest hmono.2
        (admit_tokens_bound cfg t est w htok) (admit_requests_bound cfg t est w hreq) ws
      have hws2 := admit_snd_windowStart cfg t est w
      have hac := admit_counters cfg t est w
      simp only [runAdmits, windowTokens_cons, windowRequests_cons]
      rcases rollWindow_cases cfg t w with ⟨hreset, hrws, hrtk, hrrq⟩ | ⟨hreset, hroll⟩
      · -- the window rolls at `t`: the fresh window starts strictly later
        rw [hrws] at hws2
        rw [hrtk, hrrq] at hac
        have hzero : ws = w.windowStart →
            windowTokens ws (runAdmits cfg rest (admitCall cfg t est w).2).1 = 0 ∧
            windowRequests ws (runAdmits cfg rest (admitCall cfg t est w).2).1 = 0 := by
          intro hwsw
          have hge := runAdmits_window_ge cfg rest ((admitCall cfg t est w).2) hrest hmono.2
          have hlt : ∀ e ∈ (runAdmits cfg rest (admitCall cfg t est w).2).1, ws < e.window := by
            intro e hee
            have h1 := hge e hee
            omega
          exact ⟨windowTokens_eq_zero ws _ hlt, windowRequests_eq_zero ws _ hlt⟩
        by_cases hD : ws = ((admitCall cfg t est w).2).windowStart
        · rw [if_pos hD] at hb1 hb2
          rcases hac with ⟨hall, htk, hrq⟩ | ⟨hall, htk, hrq⟩
          · split_ifs with hC hE hE
            · obtain ⟨hX0, hY0⟩ := hzero hE
              omega
            · omega
            · exact absurd ⟨hall, hD.symm⟩ hC
            · exact absurd ⟨hall, hD.symm⟩ hC
          · split_ifs with hC hE hE
            · exact absurd hC.1 hall
            · exact absurd hC.1 hall
            · obtain ⟨hX0, hY0⟩ := hzero hE
              omega
            · omega
        · rw [if_neg hD] at hb1 hb2
          rcases hac with ⟨hall, htk, hrq⟩ | ⟨hall, htk, hrq⟩
          · split_ifs with hC hE hE
            · exact absurd hC.2 (fun h => hD h.symm)
            · exact absurd hC.2 (fun h => hD h.symm)
            · obtain ⟨hX0, hY0⟩ := hzero hE
              omega
            · omega
          · split_ifs with hC hE hE
            · exact absurd hC.1 hall
            · exact absurd hC.1 hall
            · obtain ⟨hX0, hY0⟩ := hzero hE
              omega
            · omega
      · -- no roll: the call is charged to the current window
        rw [hroll] at hws2 hac
        by_cases hD : ws = ((admitCall cfg t est w).2).windowStart
        · rw [if_pos hD] at hb1 hb2
          rcases hac with ⟨hall, htk, hrq⟩ | ⟨hall, htk, hrq⟩
          · split_ifs with hC hE hE
            · omega
            · omega
            · exact absurd ⟨hall, hD.symm⟩ hC
            · exact absurd ⟨hall, hD.symm⟩ hC
          · split_ifs with hC hE hE
            · exact absurd hC.1 hall
            · exact absurd hC.1 hall
            · omega
            · omega
        · rw [if_neg hD] at hb1 hb2
          rcases hac with ⟨hall, htk, hrq⟩ | ⟨hall, htk, hrq⟩
          · split_ifs with hC hE hE
            · exact absurd hC.2 (fun h => hD h.symm)
            · exact absurd hC.2 (fun h => hD h.symm)
            · omega
            · omega
          · split_ifs with hC hE hE
            · exact absurd hC.1 hall
            · exact absurd hC.1 hall
            · omega
            · omega

/-- C3 (rate compliance): for any monotone-in-time sequence of `admit`
calls, the total token estimate of the granted calls charged to any single
budget window never exceeds `token_ceiling`, and the number of granted
calls charged to any single window never exceeds `request_ceiling`. -/
theorem rate_compliance (cfg : GovConfig) (trace : List (Nat × Nat))
    (hmono : (trace.map Prod.fst).Pairwise (· ≤ ·)) :
    ∀ ws,
      windowTokens ws (runAdmits cfg trace ⟨0, 0, 0⟩).1 ≤ cfg.tokenCeiling ∧
      windowRequests ws (runAdmits cfg trace ⟨0, 0, 0⟩).1 ≤ cfg.requestCeiling := by
  intro ws
  have h := runAdmits_window_bound cfg trace ⟨0, 0, 0⟩
    (fun p _ => Nat.zero_le p.1) hmono (Nat.zero_le _) (Nat.zero_le _) ws
  constructor
  · have h1 := h.1
    split at h1 <;> omega
  · have h2 := h.2
    split at h2 <;> omega

/-- Witness for C3 on a concrete trace: three 400-token requests at time 0
against a 1000-token window. -/
theorem rate_compliance_witness :
    windowTokens 0 (runAdmits ⟨1000, 30, 60⟩ [(0, 400), (0, 400), (0, 400)] ⟨0, 0, 0⟩).1 ≤ 1000 ∧
    windowRequests 0 (runAdmits ⟨1000, 30, 60⟩ [(0, 400), (0, 400), (0, 400)] ⟨0, 0, 0⟩).1 ≤ 30 :=
  rate_compliance ⟨1000, 30, 60⟩ [(0, 400), (0, 400), (0, 400)] (by decide) 0

/-- C4: within the current window, an `admit` call that would push either
counter past its ceiling is denied with `wait(remaining window time)` and
changes nothing, and otherwise is allowed and charges both counters; when
the current time exceeds the window end both counters reset atomically, so
the call behaves as from fresh counters.  Concretely, with
`token_ceiling = 1000`, 400-token estimates and a 60-unit window, the first
two calls are allowed, the third must wait out the window, and is allowed
after the reset. -/
theorem admit_behavior :
    (∀ (cfg : GovConfig) (now est : Nat) (w : BudgetWindow),
      ¬ w.windowStart + cfg.windowDuration < now →
      (cfg.tokenCeiling < w.tokensConsumed + est ∨
        cfg.requestCeiling < w.requestsConsumed + 1) →
      admitCall cfg now est w =
        (Decision.wait (w.windowStart + cfg.windowDuration - now), w)) ∧
    (∀ (cfg : GovConfig) (now est : Nat) (w : BudgetWindow),
      ¬ w.windowStart + cfg.windowDuration < now →
      ¬ (cfg.tokenCeiling < w.tokensConsumed + est ∨
          cfg.requestCeiling < w.requestsConsumed + 1) →
      admitCall cfg now est w =
        (Decision.allow, ⟨w.windowStart, w.tokensConsumed + est, w.requestsConsumed + 1⟩)) ∧
    (∀ (cfg : GovConfig) (now est : Nat) (w : BudgetWindow),
      w.windowStart + cfg.windowDuration < now →
      rollWindow cfg now w = ⟨now, 0, 0⟩ ∧
      admitCall cfg now est w = admitCall cfg now est ⟨now, 0, 0⟩) ∧
    admitCall ⟨1000, 30, 60⟩ 0 400 ⟨0, 0, 0⟩ = (Decision.allow, ⟨0, 400, 1⟩) ∧
    admitCall ⟨1000, 30, 60⟩ 0 400 ⟨0, 400, 1⟩ = (Decision.allow, ⟨0, 800, 2⟩) ∧
    admitCall ⟨1000, 30, 60⟩ 0 400 ⟨0, 800, 2⟩ = (Decision.wait 60, ⟨0, 800, 2⟩) ∧
    (∀ t, t ≤ 60 → admitCall ⟨1000, 30, 60⟩ t 400 ⟨0, 800, 2⟩ =
      (Decision.wait (60 - t), ⟨0, 800, 2⟩)) ∧
    admitCall ⟨1000, 30, 60⟩ 61 400 ⟨0, 800, 2⟩ = (Decision.allow, ⟨61, 400, 1⟩) := by
  refine ⟨?_, ?_, ?_, by decide, by decide, by decide, ?_, by decide⟩
  · intro cfg now est w hreset hcond
    unfold admitCall
    rw [show rollWindow cfg now w = w from by unfold rollWindow; rw [if_neg hreset]]
    dsimp only
    rw [if_pos hcond]
  · intro cfg now est w hreset hcond
    unfold admitCall
    rw [show rollWindow cfg now w = w from by unfold rollWindow; rw [if_neg hreset]]
    dsimp only
    rw [if_neg hcond]
  · intro cfg now est w hreset
    have hr : rollWindow cfg now w = ⟨now, 0, 0⟩ := by
      unfold rollWindow; rw [if_pos hreset]
    refine ⟨hr, ?_⟩
    unfold admitCall
    rw [hr, show rollWindow cfg now (⟨now, 0, 0⟩ : BudgetWindow) = ⟨now, 0, 0⟩ from by
      unfold rollWindow; rw [if_neg (by dsimp only; omega)]]
  · intro t ht
    interval_cases t <;> decide

/-- Witness for C4: the pending third call is still denied 30 units into
the window, with 30 units of wait remaining. -/
theorem admit_behavior_witness :
    admitCall ⟨1000, 30, 60⟩ 30 400 ⟨0, 800, 2⟩ = (Decision.wait 30, ⟨0, 800, 2⟩) :=
  admit_behavior.2.2.2.2.2.2.1 30 (by decide)

/-! ## CheckpointStore lemmas -/

lemma recordCompletion_lastCompleted (cp : Checkpoint) (i : Nat) (s : String) :
    (recordCompletion cp i s).lastCompletedChunkIndex = cp.lastCompletedChunkIndex := by
  unfold recordCompletion
  split <;> rfl

lemma recordCompletion_mono (cp : Checkpoint) (i : Nat) (s : String) (j : Nat) (u : String)
    (h : pairDone cp j u) : pairDone (recordCompletion cp i s) j u := by
  unfold recordCompletion
  split
  · exact h
  · rcases h with h | h
    · exact Or.inl h
    · exact Or.inr (List.mem_append_left _ h)

lemma recordCompletion_done (cp : Checkpoint) (i : Nat) (s : String) :
    pairDone (recordCompletion cp i s) i s := by
  unfold recordCompletion
  split
  · exact Or.inr (by assumption)
  · exact Or.inr (List.mem_append_right _ (List.mem_singleton.mpr rfl))

lemma recordCompletion_subset (cp : Checkpoint) (i : Nat) (s : String) (j : Nat) (u : String)
    (h : pairDone (recordCompletion cp i s) j u) : pairDone cp j u ∨ (j = i ∧ u = s) := by
  unfold recordCompletion at h
  split at h
  · exact Or.inl h
  · rcases h with h | h
    · exact Or.inl (Or.inl h)
    · rcases List.mem_append.mp h with h | h
      · exact Or.inl (Or.inr h)
      · have := List.mem_singleton.mp h
        exact Or.inr ⟨congrArg Prod.fst this, congrArg Prod.snd this⟩

lemma advanceCp_lastCompleted (cp : Checkpoint) (i : Nat) :
    (advanceCp cp i).lastCompletedChunkIndex = (i : Int) := rfl

lemma advanceCp_mono (cp : Checkpoint) (i : Nat)
    (hle : cp.lastCompletedChunkIndex ≤ (i : Int)) (j : Nat) (u : String)
    (h : pairDone cp j u) : pairDone (advanceCp cp i) j u := by
  rcases h with h | h
  · exact Or.inl (by rw [advanceCp_lastCompleted]; omega)
  · by_cases hj : (i : Int) < (j : Int)
    · exact Or.inr (List.mem_filter.mpr ⟨h, by simpa using hj⟩)
    · exact Or.inl (by rw [advanceCp_lastCompleted]; omega)

lemma advanceCp_subset (cp : Checkpoint) (i : Nat) (j : Nat) (u : String)
    (h : pairDone (advanceCp cp i) j u) : (j : Int) ≤ (i : Int) ∨ pairDone cp j u := by
  rcases h with h | h
  · rw [advanceCp_lastCompleted] at h
    exact Or.inl h
  · exact Or.inr (Or.inr (List.mem_filter.mp h).1)

/-! ## Pipeline structural lemmas -/

lemma attemptLoop_spec (oracle : Oracle) (i : Nat) (s : String) :
    ∀ (n a : Nat) (le : String) (st : PipeState),
      ((attemptLoop oracle i s n a le st).1).checkpoint = st.checkpoint ∧
      ((attemptLoop oracle i s n a le st).1).results = st.results ∧
      ((attemptLoop oracle i s n a le st).1).failures = st.failures ∧
      ∃ k, ((attemptLoop oracle i s n a le st).1).events =
        st.events ++ List.replicate k (Event.invokeEv i s) := by
  intro n
  induction n with
  | zero =>
      intro a le st
      exact ⟨rfl, rfl, rfl, 0, by simp [attemptLoop]⟩
  | succ m ih =>
      intro a le st
      simp only [attemptLoop]
      cases horacle : oracle i s a with
      | success out => exact ⟨rfl, rfl, rfl, 1, by simp⟩
      | fatal err => exact ⟨rfl, rfl, rfl, 1, by simp⟩
      | transient err =>
          obtain ⟨h1, h2, h3, k, h4⟩ := ih (a + 1) err
            { st with events := st.events ++ [Event.invokeEv i s], clock := st.clock + 1 }
          refine ⟨h1, h2, h3, k + 1, ?_⟩
          rw [h4]
          simp [List.replicate_succ, List.append_assoc]

lemma processStage_cases (oracle : Oracle) (mr i : Nat) (s : String) (st : PipeState) :
    (pairDone st.checkpoint i s ∧ processStage oracle mr i s st = st) ∨
    (¬ pairDone st.checkpoint i s ∧
      (processStage oracle mr i s st).checkpoint = recordCompletion st.checkpoint i s ∧
      (processStage oracle mr i s st).failures = st.failures ∧
      pairDone (processStage oracle mr i s st).checkpoint i s) ∨
    (¬ pairDone st.checkpoint i s ∧
      (processStage oracle mr i s st).checkpoint = st.checkpoint ∧
      ∃ rep : FailureReport, rep.chunkIndex = i ∧ rep.stageName = s ∧
        (processStage oracle mr i s st).failures = st.failures ++ [rep]) := by
  unfold processStage
  split
  · exact Or.inl ⟨by assumption, rfl⟩
  · rename_i hnd
    obtain ⟨hcp, hres, hfl, hev⟩ := attemptLoop_spec oracle i s (mr + 1) 0 "" st
    dsimp only
    cases hout : (attemptLoop oracle i s (mr + 1) 0 "" st).2.1 with
    | some out =>
        simp only [hout]
        refine Or.inr (Or.inl ⟨hnd, ?_, ?_, ?_⟩)
        · rw [hcp]
        · exact hfl
        · show pairDone (recordCompletion ((attemptLoop oracle i s (mr + 1) 0 "" st).1).checkpoint i s) i s
          exact recordCompletion_done _ i s
    | none =>
        simp only [hout]
        exact Or.inr (Or.inr ⟨hnd, hcp, ⟨i, s, _, _⟩, rfl, rfl, by rw [hfl]⟩)

lemma processStage_lastCompleted (oracle : Oracle) (mr i : Nat) (s : String) (st : PipeState) :
    (processStage oracle mr i s st).checkpoint.lastCompletedChunkIndex =
      st.checkpoint.lastCompletedChunkIndex := by
  rcases processStage_cases oracle mr i s st with ⟨_, h⟩ | ⟨_, h, _⟩ | ⟨_, h, _⟩
  · rw [h]
  · rw [h, recordCompletion_lastCompleted]
  · rw [h]

lemma processStage_mono (oracle : Oracle) (mr i : Nat) (s : String) (st : PipeState)
    (j : Nat) (u : String) (h : pairDone st.checkpoint j u) :
    pairDone (processStage oracle mr i s st).checkpoint j u := by
  rcases processStage_cases oracle mr i s st with ⟨_, he⟩ | ⟨_, he, _⟩ | ⟨_, he, _⟩
  · rw [he]; exact h
  · rw [he]; exact recordCompletion_mono _ _ _ _ _ h
  · rw [he]; exact h

lemma processStage_pair_subset (oracle : Oracle) (mr i : Nat) (s : String) (st : PipeState)
    (j : Nat) (u : String) (h : pairDone (processStage oracle mr i s st).checkpoint j u) :
    pairDone st.checkpoint j u ∨ (j = i ∧ u = s) := by
  rcases processStage_cases oracle mr i s st with ⟨_, he⟩ | ⟨_, he, _⟩ | ⟨_, he, _⟩
  · rw [he] at h; exact Or.inl h
  · rw [he] at h; exact recordCompletion_subset _ _ _ _ _ h
  · rw [he] at h; exact Or.inl h

lemma processStage_failures (oracle : Oracle) (mr i : Nat) (s : String) (st : PipeState) :
    ∃ Δ, (processStage oracle mr i s st).failures = st.failures ++ Δ := by
  rcases processStage_cases oracle mr i s st with ⟨_, he⟩ | ⟨_, _, he, _⟩ | ⟨_, _, rep, _, _, he⟩
  · exact ⟨[], by rw [he, List.append_nil]⟩
  · exact ⟨[], by rw [he, List.append_nil]⟩
  · exact ⟨[rep], he⟩

lemma processStage_events (oracle : Oracle) (mr i : Nat) (s : String) (st : PipeState) :
    ∃ Δ, (processStage oracle mr i s st).events = st.events ++ Δ ∧
      ∀ e ∈ Δ, e = Event.invokeEv i s ∨ e = Event.recordEv i s := by
  unfold processStage
  split
  · exact ⟨[], by rw [List.append_nil], by simp⟩
  · obtain ⟨_, _, _, k, hev⟩ := attemptLoop_spec oracle i s (mr + 1) 0 "" st
    dsimp only
    cases hout : (attemptLoop oracle i s (mr + 1) 0 "" st).2.1 with
    | some out =>
        simp only [hout]
        refine ⟨List.replicate k (Event.invokeEv i s) ++ [Event.recordEv i s], ?_, ?_⟩
        · show ((attemptLoop oracle i s (mr + 1) 0 "" st).1).events ++ [Event.recordEv i s] = _
          rw [hev, List.append_assoc]
        · intro e he
          rcases List.mem_append.mp he with he | he
          · exact Or.inl (List.eq_of_mem_replicate he)
          · exact Or.inr (List.mem_singleton.mp he)
    | none =>
        simp only [hout]
        refine ⟨List.replicate k (Event.invokeEv i s), hev, ?_⟩
        intro e he
        exact Or.inl (List.eq_of_mem_replicate he)

lemma processStage_done_of_failures (oracle : Oracle) (mr i : Nat) (s : String) (st : PipeState)
    (h : (processStage oracle mr i s st).failures = st.failures) :
    pairDone (processStage oracle mr i s st).checkpoint i s := by
  rcases processStage_cases oracle mr i s st with ⟨hd, he⟩ | ⟨_, _, _, hd⟩ | ⟨_, _, rep, _, _, he⟩
  · rw [he]; exact hd
  · exact hd
  · rw [he] at h
    exact absurd (congrArg List.length h) (by simp)

lemma append_append_eq_self {α : Type _} (l Δ₁ Δ₂ : List α)
    (h : (l ++ Δ₁) ++ Δ₂ = l) : Δ₁ = [] ∧ Δ₂ = [] := by
  have hl := congrArg List.length h
  simp only [List.length_append] at hl
  constructor
  · exact List.length_eq_zero.mp (by omega)
  · exact List.length_eq_zero.mp (by omega)

lemma processStages_mono (oracle : Oracle) (mr i : Nat) :
    ∀ (L : List String) (st : PipeState) (j : Nat) (u : String),
      pairDone st.checkpoint j u →
      pairDone (processStages oracle mr i L st).checkpoint j u := by
  intro L
  induction L with
  | nil => intro st j u h; exact h
  | cons s L ih =>
      intro st j u h
      exact ih _ j u (processStage_mono oracle mr i s st j u h)

lemma processStages_lastCompleted (oracle : Oracle) (mr i : Nat) :
    ∀ (L : List String) (st : PipeState),
      (processStages oracle mr i L st).checkpoint.lastCompletedChunkIndex =
        st.checkpoint.lastCompletedChunkIndex := by
  intro L
  induction L with
  | nil => intro st; rfl
  | cons s L ih =>
      intro st
      rw [processStages, ih, processStage_lastCompleted]

lemma processStages_failures (oracle : Oracle) (mr i : Nat) :
    ∀ (L : List String) (st : PipeState),
      ∃ Δ, (processStages oracle mr i L st).failures = st.failures ++ Δ := by
  intro L
  induction L with
  | nil => intro st; exact ⟨[], by simp [processStages]⟩
  | cons s L ih =>
      intro st
      obtain ⟨Δ₁, h₁⟩ := processStage_failures oracle mr i s st
      obtain ⟨Δ₂, h₂⟩ := ih (processStage oracle mr i s st)
      exact ⟨Δ₁ ++ Δ₂, by rw [processStages, h₂, h₁, List.append_assoc]⟩

lemma processStages_events (oracle : Oracle) (mr i : Nat) :
    ∀ (L : List String) (st : PipeState),
      ∃ Δ, (processStages oracle mr i L st).events = st.events ++ Δ ∧
        ∀ e ∈ Δ, ∃ s, s ∈ L ∧ (e = Event.invokeEv i s ∨ e = Event.recordEv i s) := by
  intro L
  induction L with
  | nil => intro st; exact ⟨[], by simp [processStages], by simp⟩
  | cons s L ih =>
      intro st
      obtain ⟨Δ₁, h₁, hΔ₁⟩ := processStage_events oracle mr i s st
      obtain ⟨Δ₂, h₂, hΔ₂⟩ := ih (processStage oracle mr i s st)
      refine ⟨Δ₁ ++ Δ₂, by rw [processStages, h₂, h₁, List.append_assoc], ?_⟩
      intro e he
      rcases List.mem_append.mp he with he | he
      · exact ⟨s, List.mem_cons_self _ _, hΔ₁ e he⟩
      · obtain ⟨u, hu, hE⟩ := hΔ₂ e he
        exact ⟨u, List.mem_cons_of_mem _ hu, hE⟩

lemma processStages_done_of_failures (oracle : Oracle) (mr i : Nat) :
    ∀ (L : List String) (st : PipeState),
      (processStages oracle mr i L st).failures = st.failures →
      ∀ s ∈ L, pairDone (processStages oracle mr i L st).checkpoint i s := by
  intro L
  induction L with
  | nil => intro st _ s hs; cases hs
  | cons s L ih =>
      intro st hfl u hu
      obtain ⟨Δ₁, h₁⟩ := processStage_failures oracle mr i s st
      obtain ⟨Δ₂, h₂⟩ := processStages_failures oracle mr i L (processStage oracle mr i s st)
      rw [processStages] at hfl
      obtain ⟨hΔ₁, hΔ₂⟩ := append_append_eq_self st.failures Δ₁ Δ₂
        (by rw [← h₁, ← h₂, hfl])
      have hfl₁ : (processStage oracle mr i s st).failures = st.failures := by
        rw [h₁, hΔ₁, List.append_nil]
      rcases List.mem_cons.mp hu with rfl | hu
      · rw [processStages]
        exact processStages_mono oracle mr i L _ i u
          (processStage_done_of_failures oracle mr i u st hfl₁)
      · rw [processStages]
        refine ih (processStage oracle mr i s st) ?_ u hu
        rw [h₂, hΔ₂, List.append_nil]

lemma processPhases_mono (oracle : Oracle) (mr i : Nat) :
    ∀ (phs : List (List String)) (st : PipeState) (j : Nat) (u : String),
      pairDone st.checkpoint j u →
      pairDone (processPhases oracle mr i phs st).checkpoint j u := by
  intro phs
  induction phs with
  | nil => intro st j u h; exact h
  | cons ph rest ih =>
      intro st j u h
      rw [processPhases]
      split
      · exact ih _ j u (processStages_mono oracle mr i ph st j u h)
      · exact processStages_mono oracle mr i ph st j u h

lemma processPhases_lastCompleted (oracle : Oracle) (mr i : Nat) :
    ∀ (phs : List (List String)) (st : PipeState),
      (processPhases oracle mr i phs st).checkpoint.lastCompletedChunkIndex =
        st.checkpoint.lastCompletedChunkIndex := by
  intro phs
  induction phs with
  | nil => intro st; rfl
  | cons ph rest ih =>
      intro st
      rw [processPhases]
      split
      · rw [ih, processStages_lastCompleted]
      · rw [processStages_lastCompleted]

lemma processPhases_failures (oracle : Oracle) (mr i : Nat) :
    ∀ (phs : List (List String)) (st : PipeState),
      ∃ Δ, (processPhases oracle mr i phs st).failures = st.failures ++ Δ := by
  intro phs
  induction phs with
  | nil => intro st; exact ⟨[], by simp [processPhases]⟩
  | cons ph rest ih =>
      intro st
      rw [processPhases]
      obtain ⟨Δ₁, h₁⟩ := processStages_failures oracle mr i ph st
      split
      · obtain ⟨Δ₂, h₂⟩ := ih (processStages oracle mr i ph st)
        exact ⟨Δ₁ ++ Δ₂, by rw [h₂, h₁, List.append_assoc]⟩
      · exact ⟨Δ₁, h₁⟩

lemma processPhases_events (oracle : Oracle) (mr i : Nat) :
    ∀ (phs : List (List String)) (st : PipeState),
      ∃ Δ, (processPhases oracle mr i phs st).events = st.events ++ Δ ∧
        ∀ e ∈ Δ, ∃ s, s ∈ stagesOf phs ∧
          (e = Event.invokeEv i s ∨ e = Event.recordEv i s) := by
  intro phs
  induction phs with
  | nil => intro st; exact ⟨[], by simp [processPhases], by simp⟩
  | cons ph rest ih =>
      intro st
      rw [processPhases]
      obtain ⟨Δ₁, h₁, hΔ₁⟩ := processStages_events oracle mr i ph st
      split
      · obtain ⟨Δ₂, h₂, hΔ₂⟩ := ih (processStages oracle mr i ph st)
        refine ⟨Δ₁ ++ Δ₂, by rw [h₂, h₁, List.append_assoc], ?_⟩
        intro e he
        rcases List.mem_append.mp he with he | he
        · obtain ⟨s, hs, hE⟩ := hΔ₁ e he
          exact ⟨s, by simp [stagesOf, hs], hE⟩
        · obtain ⟨s, hs, hE⟩ := hΔ₂ e he
          simp only [stagesOf] at hs
          exact ⟨s, by simp [stagesOf]; exact Or.inr (by simpa [stagesOf] using hs), hE⟩
      · refine ⟨Δ₁, h₁, ?_⟩
        intro e he
        obtain ⟨s, hs, hE⟩ := hΔ₁ e he
        exact ⟨s, by simp [stagesOf, hs], hE⟩

lemma processPhases_done_of_failures (oracle : Oracle) (mr i : Nat) :
    ∀ (phs : List (List String)) (st : PipeState),
      (processPhases oracle mr i phs st).failures = st.failures →
      ∀ ph ∈ phs, ∀ s ∈ ph, pairDone (processPhases oracle mr i phs st).checkpoint i s := by
  intro phs
  induction phs with
  | nil => intro st _ ph hph; cases hph
  | cons ph rest ih =>
      intro st hfl ph' hph' s hs
      obtain ⟨Δ₁, h₁⟩ := processStages_failures oracle mr i ph st
      rw [processPhases] at hfl ⊢
      split at hfl
      · rename_i hg
        obtain ⟨Δ₂, h₂⟩ := processPhases_failures oracle mr i rest (processStages oracle mr i ph st)
        obtain ⟨hΔ₁, hΔ₂⟩ := append_append_eq_self st.failures Δ₁ Δ₂
          (by rw [← h₁, ← h₂, hfl])
        rw [if_pos hg]
        rcases List.mem_cons.mp hph' with rfl | hph'
        · exact processPhases_mono oracle mr i rest _ i s (hg s hs)
        · refine ih (processStages oracle mr i ph st) ?_ ph' hph' s hs
          rw [h₂, hΔ₂, List.append_nil]
      · rename_i hg
        exact absurd (fun u hu => processStages_done_of_failures oracle mr i ph st
          (by rw [h₁, (append_append_eq_self st.failures Δ₁ []
            (by rw [List.append_nil, ← h₁, hfl])).1, List.append_nil]) u hu) hg

lemma processChunk_cases (oracle : Oracle) (mr : Nat) (graph : List (List String))
    (i : Nat) (st : PipeState) :
    ((i : Int) ≤ st.checkpoint.lastCompletedChunkIndex ∧
      processChunk oracle mr graph i st = st) ∨
    (¬ (i : Int) ≤ st.checkpoint.lastCompletedChunkIndex ∧
      ¬ ((∀ ph ∈ graph, ∀ s ∈ ph,
          pairDone (processPhases oracle mr i graph st).checkpoint i s) ∧
        (processPhases oracle mr i graph st).checkpoint.lastCompletedChunkIndex =
          (i : Int) - 1) ∧
      processChunk oracle mr graph i st = processPhases oracle mr i graph st) ∨
    (¬ (i : Int) ≤ st.checkpoint.lastCompletedChunkIndex ∧
      (∀ ph ∈ graph, ∀ s ∈ ph,
        pairDone (processPhases oracle mr i graph st).checkpoint i s) ∧
      (processPhases oracle mr i graph st).checkpoint.lastCompletedChunkIndex =
        (i : Int) - 1 ∧
      processChunk oracle mr graph i st =
        { processPhases oracle mr i graph st with
          checkpoint := advanceCp (processPhases oracle mr i graph st).checkpoint i,
          events := (processPhases oracle mr i graph st).events ++ [Event.advanceEv i] }) := by
  unfold processChunk
  split
  · exact Or.inl ⟨by assumption, rfl⟩
  · rename_i hskip
    dsimp only
    split
    · rename_i hg
      exact Or.inr (Or.inr ⟨hskip, hg.1, hg.2, rfl⟩)
    · rename_i hg
      exact Or.inr (Or.inl ⟨hskip, hg, rfl⟩)

lemma processChunk_mono (oracle : Oracle) (mr : Nat) (graph : List (List String))
    (i : Nat) (st : PipeState) (j : Nat) (u : String) (h : pairDone st.checkpoint j u) :
    pairDone (processChunk oracle mr graph i st).checkpoint j u := by
  rcases processChunk_cases oracle mr graph i st with ⟨_, he⟩ | ⟨_, _, he⟩ | ⟨_, _, hlast, he⟩
  · rw [he]; exact h
  · rw [he]; exact processPhases_mono oracle mr i graph st j u h
  · rw [he]
    exact advanceCp_mono _ i (by omega) j u (processPhases_mono oracle mr i graph st j u h)

lemma processChunk_lastCompleted_mono (oracle : Oracle) (mr : Nat)
    (graph : List (List String)) (i : Nat) (st : PipeState) :
    st.checkpoint.lastCompletedChunkIndex ≤
      (processChunk oracle mr graph i st).checkpoint.lastCompletedChunkIndex := by
  rcases processChunk_cases oracle mr graph i st with ⟨_, he⟩ | ⟨_, _, he⟩ | ⟨_, _, hlast, he⟩
  · rw [he]
  · rw [he, processPhases_lastCompleted]
  · rw [he]
    show st.checkpoint.lastCompletedChunkIndex ≤ (advanceCp _ i).lastCompletedChunkIndex
    rw [advanceCp_lastCompleted]
    rw [processPhases_lastCompleted] at hlast
    omega

lemma processChunk_failures (oracle : Oracle) (mr : Nat) (graph : List (List String))
    (i : Nat) (st : PipeState) :
    ∃ Δ, (processChunk oracle mr graph i st).failures = st.failures ++ Δ := by
  rcases processChunk_cases oracle mr graph i st with ⟨_, he⟩ | ⟨_, _, he⟩ | ⟨_, _, _, he⟩
  · exact ⟨[], by rw [he, List.append_nil]⟩
  · rw [he]; exact processPhases_failures oracle mr i graph st
  · rw [he]; exact processPhases_failures oracle mr i graph st

lemma processChunk_complete (oracle : Oracle) (mr : Nat) (graph : List (List String))
    (i : Nat) (st : PipeState)
    (hlast : st.checkpoint.lastCompletedChunkIndex = (i : Int) - 1)
    (hfail : (processChunk oracle mr graph i st).failures = st.failures) :
    (processChunk oracle mr graph i st).checkpoint.lastCompletedChunkIndex = (i : Int) := by
  rcases processChunk_cases oracle mr graph i st with ⟨hskip, _⟩ | ⟨_, hg, he⟩ | ⟨_, _, _, he⟩
  · omega
  · exfalso
    rw [he] at hfail
    refine hg ⟨fun ph hph s hs =>
      processPhases_done_of_failures oracle mr i graph st hfail ph hph s hs, ?_⟩
    rw [processPhases_lastCompleted]
    exact hlast
  · rw [he]
    exact advanceCp_lastCompleted _ i

lemma runPipeline_cons (oracle : Oracle) (mr : Nat) (graph : List (List String))
    (c : Chunk) (cs : List Chunk) (st : PipeState) :
    runPipeline oracle mr graph (c :: cs) st =
      runPipeline oracle mr graph cs (processChunk oracle mr graph c.index st) := by
  rfl

lemma runPipeline_failures (oracle : Oracle) (mr : Nat) (graph : List (List String)) :
    ∀ (chunks : List Chunk) (st : PipeState),
      ∃ Δ, (runPipeline oracle mr graph chunks st).failures = st.failures ++ Δ := by
  intro chunks
  induction chunks with
  | nil => intro st; exact ⟨[], by simp [runPipeline]⟩
  | cons c cs ih =>
      intro st
      rw [runPipeline_cons]
      obtain ⟨Δ₁, h₁⟩ := processChunk_failures oracle mr graph c.index st
      obtain ⟨Δ₂, h₂⟩ := ih (processChunk oracle mr graph c.index st)
      exact ⟨Δ₁ ++ Δ₂, by rw [h₂, h₁, List.append_assoc]⟩

lemma runPipeline_complete (oracle : Oracle) (mr : Nat) (graph : List (List String)) :
    ∀ (chunks : List Chunk) (k : Nat) (st : PipeState),
      chunks.map Chunk.index = List.range' k chunks.length →
      st.checkpoint.lastCompletedChunkIndex = (k : Int) - 1 →
      (runPipeline oracle mr graph chunks st).failures = st.failures →
      (runPipeline oracle mr graph chunks st).checkpoint.lastCompletedChunkIndex =
        (k : Int) + chunks.length - 1 := by
  intro chunks
  induction chunks with
  | nil =>
      intro k st _ hlast _
      simp only [runPipeline, List.foldl_nil, List.length_nil]
      rw [hlast]
      push_cast
      ring
  | cons c cs ih =>
      intro k st hmap hlast hfail
      simp only [List.map_cons, List.length_cons, List.range'_succ] at hmap
      obtain ⟨hc, hcs⟩ := List.cons.inj hmap
      rw [runPipeline_cons, hc] at hfail ⊢
      obtain ⟨Δ₁, h₁⟩ := processChunk_failures oracle mr graph k st
      obtain ⟨Δ₂, h₂⟩ := runPipeline_failures oracle mr graph cs
        (processChunk oracle mr graph k st)
      obtain ⟨hΔ₁, hΔ₂⟩ := append_append_eq_self st.failures Δ₁ Δ₂
        (by rw [← h₁, ← h₂, hfail])
      have hfl₁ : (processChunk oracle mr graph k st).failures = st.failures := by
        rw [h₁, hΔ₁, List.append_nil]
      have hdone := processChunk_complete oracle mr graph k st hlast hfl₁
      have := ih (k + 1) (processChunk oracle mr graph k st) hcs
        (by rw [hdone]; push_cast; ring) (by rw [h₂, hΔ₂, List.append_nil])
      rw [this]
      simp only [List.length_cons]
      push_cast
      ring

lemma runPipeline_skip_all (oracle : Oracle) (mr : Nat) (graph : List (List String)) :
    ∀ (chunks : List Chunk) (st : PipeState),
      (∀ c ∈ chunks, (c.index : Int) ≤ st.checkpoint.lastCompletedChunkIndex) →
      runPipeline oracle mr graph chunks st = st := by
  intro chunks
  induction chunks with
  | nil => intro st _; rfl
  | cons c cs ih =>
      intro st hle
      rw [runPipeline_cons]
      have hskip : processChunk oracle mr graph c.index st = st := by
        rcases processChunk_cases oracle mr graph c.index st with ⟨_, he⟩ | ⟨hn, _, _⟩ | ⟨hn, _⟩
        · exact he
        · exact absurd (hle c (List.mem_cons_self _ _)) hn
        · exact absurd (hle c (List.mem_cons_self _ _)) hn
      rw [hskip]
      exact ih st fun c' hc' => hle c' (List.mem_cons_of_mem _ hc')

/-- C2 (idempotent resume): when a run over the full chunk sequence ends
with no permanently-failed pairs, re-running the pipeline from the persisted
state (same run identity, same oracle) changes nothing: it issues no
external call and reports the same counts of succeeded and permanently
failed `(chunk, stage)` pairs. -/
theorem idempotent_resume (oracle : Oracle) (mr : Nat) (graph : List (List String))
    (n : Nat) (chunks : List Chunk)
    (hidx : chunks.map Chunk.index = List.range n)
    (hcomplete : (runPipeline oracle mr graph chunks initState).failures = []) :
    runPipeline oracle mr graph chunks
        (resumeState (runPipeline oracle mr graph chunks initState)) =
      resumeState (runPipeline oracle mr graph chunks initState) ∧
    (∀ i s, Event.invokeEv i s ∉
      (runPipeline oracle mr graph chunks
        (resumeState (runPipeline oracle mr graph chunks initState))).events) ∧
    (runPipeline oracle mr graph chunks
        (resumeState (runPipeline oracle mr graph chunks initState))).results.length =
      (runPipeline oracle mr graph chunks initState).results.length ∧
    (runPipeline oracle mr graph chunks
        (resumeState (runPipeline oracle mr graph chunks initState))).failures.length =
      (runPipeline oracle mr graph chunks initState).failures.length := by
  have hlen : chunks.length = n := by
    have := congrArg List.length hidx
    simpa using this
  have hlast : (runPipeline oracle mr graph chunks initState).checkpoint.lastCompletedChunkIndex =
      (0 : Int) + chunks.length - 1 := by
    refine runPipeline_complete oracle mr graph chunks 0 initState ?_ (by decide) ?_
    · rw [hidx, hlen, List.range_eq_range']
    · rw [hcomplete]; rfl
  have hskipc : ∀ c ∈ chunks, (c.index : Int) ≤
      (resumeState (runPipeline oracle mr graph chunks initState)).checkpoint.lastCompletedChunkIndex := by
    intro c hc
    have hmem : c.index ∈ List.range n := by
      rw [← hidx]
      exact List.mem_map_of_mem _ hc
    have hlt := List.mem_range.mp hmem
    show (c.index : Int) ≤ (runPipeline oracle mr graph chunks initState).checkpoint.lastCompletedChunkIndex
    rw [hlast]
    omega
  have heq := runPipeline_skip_all oracle mr graph chunks
    (resumeState (runPipeline oracle mr graph chunks initState)) hskipc
  refine ⟨heq, ?_, ?_, ?_⟩
  · rw [heq]
    intro i s h
    simp [resumeState] at h
  · rw [heq]
    rfl
  · rw [heq]
    simp [resumeState, hcomplete]

/-- Witness for C2: a one-chunk, one-stage, all-success run resumes to an
unchanged state. -/
theorem idempotent_resume_witness :
    runPipeline (allSuccess "ok") 0 [["A"]] [⟨0, 0, 1, ['a']⟩]
        (resumeState (runPipeline (allSuccess "ok") 0 [["A"]] [⟨0, 0, 1, ['a']⟩] initState)) =
      resumeState (runPipeline (allSuccess "ok") 0 [["A"]] [⟨0, 0, 1, ['a']⟩] initState) :=
  (idempotent_resume (allSuccess "ok") 0 [["A"]] 1 [⟨0, 0, 1, ['a']⟩]
    (by decide) (by decide)).1

/-- C10: the finance notebook's flow string yields exactly two phases —
phase 1 = {FinancialStatementsExpert} and phase 2 = {ManagementDiscussionReviewer,
RiskAssessmentAnalyst, SummaryReportGenerator} — so SummaryReportGenerator runs
in the same (second) parallel phase as the two stages whose findings it
consolidates, not in a later phase; and on a run over two chunks each of the
four stages is invoked exactly once per chunk. -/
theorem finance_stage_graph :
    parseFlow financeFlow =
      [["FinancialStatementsExpert"],
        ["ManagementDiscussionReviewer", "RiskAssessmentAnalyst", "SummaryReportGenerator"]] ∧
    (parseFlow financeFlow).length = 2 ∧
    (∀ s ∈ stagesOf (parseFlow financeFlow), ∀ i ∈ [0, 1],
      (runPipeline (allSuccess "ok") 2 (parseFlow financeFlow)
          [⟨0, 0, 5, ['a', 'a', 'a', 'a', 'a']⟩, ⟨1, 5, 5, ['b', 'b', 'b', 'b', 'b']⟩]
          initState).events.count (Event.invokeEv i s) = 1) := by
  refine ⟨by decide, by decide, by decide⟩

/-! ## Event-log safety invariants -/

lemma append_eq_append_cons {α : Type _} :
    ∀ (l₁ l₂ pre post : List α) (x : α), l₁ ++ l₂ = pre ++ x :: post →
      (∃ mid, l₁ = pre ++ x :: mid ∧ post = mid ++ l₂) ∨
      (∃ pre₂, pre = l₁ ++ pre₂ ∧ l₂ = pre₂ ++ x :: post) := by
  intro l₁
  induction l₁ with
  | nil =>
      intro l₂ pre post x h
      exact Or.inr ⟨pre, rfl, h⟩
  | cons a l₁ ih =>
      intro l₂ pre post x h
      cases pre with
      | nil =>
          rw [List.cons_append, List.nil_append] at h
          obtain ⟨rfl, h2⟩ := List.cons.inj h
          exact Or.inl ⟨l₁, rfl, h2.symm⟩
      | cons b pre' =>
          rw [List.cons_append, List.cons_append] at h
          obtain ⟨rfl, h2⟩ := List.cons.inj h
          rcases ih l₂ pre' post x h2 with ⟨mid, h3, h4⟩ | ⟨pre₂, h3, h4⟩
          · exact Or.inl ⟨mid, by rw [List.cons_append, h3], h4⟩
          · exact Or.inr ⟨pre₂, by rw [List.cons_append, h3], h4⟩

lemma invokeSafe_append (graph : List (List String)) (evts Δ : List Event)
    (h : InvokeSafe graph evts)
    (hΔ : ∀ i s, Event.invokeEv i s ∈ Δ →
      ∀ p ph ph', graph[p]? = some ph → graph[p + 1]? = some ph' → s ∈ ph' →
      ∀ t ∈ ph, Event.recordEv i t ∈ evts) :
    InvokeSafe graph (evts ++ Δ) := by
  intro pre post i s hsplit p ph ph' hp hp' hs t ht
  rcases append_eq_append_cons evts Δ pre post _ hsplit with ⟨mid, h1, _⟩ | ⟨pre₂, h1, h2⟩
  · exact h pre mid i s h1 p ph ph' hp hp' hs t ht
  · rw [h1]
    refine List.mem_append_left _ (hΔ i s ?_ p ph ph' hp hp' hs t ht)
    rw [h2]
    exact List.mem_append_right _ (List.mem_cons_self _ _)

lemma advanceSafe_append (graph : List (List String)) (evts Δ : List Event)
    (h : AdvanceSafe graph evts)
    (hΔ : ∀ i, Event.advanceEv i ∈ Δ →
      ∀ j s, j ≤ i → s ∈ stagesOf graph → Event.recordEv j s ∈ evts) :
    AdvanceSafe graph (evts ++ Δ) := by
  intro pre post i hsplit j s hj hs
  rcases append_eq_append_cons evts Δ pre post _ hsplit with ⟨mid, h1, _⟩ | ⟨pre₂, h1, h2⟩
  · exact h pre mid i h1 j s hj hs
  · rw [h1]
    refine List.mem_append_left _ (hΔ i ?_ j s hj hs)
    rw [h2]
    exact List.mem_append_right _ (List.mem_cons_self _ _)

lemma mem_stagesOf_of_getElem (graph : List (List String)) (p : Nat) (ph : List String)
    (s : String) (hp : graph[p]? = some ph) (hs : s ∈ ph) : s ∈ stagesOf graph :=
  List.mem_flatten_of_mem (List.getElem?_mem hp) hs

lemma phase_unique :
    ∀ (graph : List (List String)), (stagesOf graph).Nodup →
      ∀ (p q : Nat) (ph ph' : List String) (s : String),
        graph[p]? = some ph → graph[q]? = some ph' → s ∈ ph → s ∈ ph' → p = q := by
  intro graph
  induction graph with
  | nil =>
      intro _ p q ph ph' s hp
      simp at hp
  | cons g gs ih =>
      intro huniq p q ph ph' s hp hq hsp hsq
      have huniq' : (g ++ stagesOf gs).Nodup := huniq
      have hdisj := List.disjoint_of_nodup_append huniq'
      cases p with
      | zero =>
          cases q with
          | zero => rfl
          | succ q' =>
              exfalso
              rw [List.getElem?_cons_zero] at hp
              rw [List.getElem?_cons_succ] at hq
              obtain rfl := Option.some.inj hp
              exact hdisj hsp (mem_stagesOf_of_getElem gs q' ph' s hq hsq)
      | succ p' =>
          cases q with
          | zero =>
              exfalso
              rw [List.getElem?_cons_zero] at hq
              rw [List.getElem?_cons_succ] at hp
              obtain rfl := Option.some.inj hq
              exact hdisj hsq (mem_stagesOf_of_getElem gs p' ph s hp hsp)
          | succ q' =>
              rw [List.getElem?_cons_succ] at hp hq
              have := ih (List.nodup_append.mp huniq').2.1 p' q' ph ph' s hp hq hsp hsq
              omega

lemma drop_eq_cons_getElem {α : Type _} (l : List α) (d : Nat) (x : α) (xs : List α)
    (h : l.drop d = x :: xs) : l[d]? = some x ∧ l.drop (d + 1) = xs := by
  constructor
  · have h0 : (l.drop d)[0]? = some x := by rw [h]; simp
    rw [List.getElem?_drop] at h0
    simpa using h0
  · have h1 : l.drop (d + 1) = (l.drop d).drop 1 := by
      rw [List.drop_drop, Nat.add_comm]
    rw [h1, h]
    rfl

lemma processStage_record_mem (oracle : Oracle) (mr i : Nat) (s : String) (st : PipeState)
    (hnd : ¬ pairDone st.checkpoint i s)
    (hdone : pairDone (processStage oracle mr i s st).checkpoint i s) :
    Event.recordEv i s ∈ (processStage oracle mr i s st).events := by
  unfold processStage at hdone ⊢
  rw [if_neg hnd] at hdone ⊢
  obtain ⟨hcp, _, _, _⟩ := attemptLoop_spec oracle i s (mr + 1) 0 "" st
  dsimp only at hdone ⊢
  cases hout : (attemptLoop oracle i s (mr + 1) 0 "" st).2.1 with
  | some out =>
      simp only [hout]
      exact List.mem_append_right _ (List.mem_cons_self _ _)
  | none =>
      simp only [hout] at hdone
      rw [show ((attemptLoop oracle i s (mr + 1) 0 "" st).1).checkpoint = st.checkpoint
        from hcp] at hdone
      exact absurd hdone hnd

lemma processStage_inv (oracle : Oracle) (mr : Nat) (graph : List (List String))
    (i : Nat) (s : String) (st : PipeState)
    (hinv : PipeInv graph st)
    (hctx : ∀ p ph ph', graph[p]? = some ph → graph[p + 1]? = some ph' → s ∈ ph' →
      ∀ t ∈ ph, pairDone st.checkpoint i t) :
    PipeInv graph (processStage oracle mr i s st) := by
  obtain ⟨hrec, hsafeI, hsafeA⟩ := hinv
  obtain ⟨Δ, hev, hΔ⟩ := processStage_events oracle mr i s st
  refine ⟨?_, ?_, ?_⟩
  · intro j u hu hd
    rcases processStage_pair_subset oracle mr i s st j u hd with hd' | ⟨rfl, rfl⟩
    · rw [hev]
      exact List.mem_append_left _ (hrec j u hu hd')
    · by_cases hnd : pairDone st.checkpoint j u
      · rw [hev]
        exact List.mem_append_left _ (hrec j u hu hnd)
      · exact processStage_record_mem oracle mr j u st hnd hd
  · rw [hev]
    refine invokeSafe_append graph st.events Δ hsafeI ?_
    intro i' s' hmem p ph ph' hp hp' hs' t ht
    rcases hΔ _ hmem with he | he
    · have h1 := (Event.invokeEv.inj he).1
      have h2 := (Event.invokeEv.inj he).2
      rw [h1]
      exact hrec i t (mem_stagesOf_of_getElem graph p ph t hp ht)
        (hctx p ph ph' hp hp' (h2 ▸ hs') t ht)
    · cases he
  · rw [hev]
    refine advanceSafe_append graph st.events Δ hsafeA ?_
    intro i' hmem
    rcases hΔ _ hmem with he | he <;> cases he

lemma processStages_inv (oracle : Oracle) (mr : Nat) (graph : List (List String)) (i : Nat) :
    ∀ (L : List String) (st : PipeState),
      PipeInv graph st →
      (∀ s ∈ L, ∀ p ph ph', graph[p]? = some ph → graph[p + 1]? = some ph' → s ∈ ph' →
        ∀ t ∈ ph, pairDone st.checkpoint i t) →
      PipeInv graph (processStages oracle mr i L st) := by
  intro L
  induction L with
  | nil => intro st hinv _; exact hinv
  | cons s L ih =>
      intro st hinv hctx
      rw [processStages]
      refine ih (processStage oracle mr i s st)
        (processStage_inv oracle mr graph i s st hinv
          (hctx s (List.mem_cons_self _ _))) ?_
      intro u hu p ph ph' hp hp' hu' t ht
      exact processStage_mono oracle mr i s st i t
        (hctx u (List.mem_cons_of_mem _ hu) p ph ph' hp hp' hu' t ht)

lemma processPhases_inv (oracle : Oracle) (mr : Nat) (graph : List (List String))
    (i : Nat) (huniq : (stagesOf graph).Nodup) :
    ∀ (phs : List (List String)) (d : Nat), graph.drop d = phs →
      ∀ (st : PipeState), PipeInv graph st →
      (∀ q ph, q < d → graph[q]? = some ph → ∀ t ∈ ph, pairDone st.checkpoint i t) →
      PipeInv graph (processPhases oracle mr i phs st) := by
  intro phs
  induction phs with
  | nil => intro d _ st hinv _; exact hinv
  | cons ph rest ih =>
      intro d hd st hinv hprev
      obtain ⟨hget, hrest⟩ := drop_eq_cons_getElem graph d ph rest hd
      have hstages : PipeInv graph (processStages oracle mr i ph st) := by
        refine processStages_inv oracle mr graph i ph st hinv ?_
        intro s hs p php php' hp hp' hs' t ht
        have hpq : p + 1 = d := phase_unique graph huniq (p + 1) d php' ph s hp' hget hs' hs
        have hplt : p < d := by omega
        exact hprev p php hplt hp t ht
      rw [processPhases]
      split
      · rename_i hg
        refine ih (d + 1) hrest (processStages oracle mr i ph st) hstages ?_
        intro q qh hq hqget t ht
        by_cases hqd : q = d
        · subst hqd
          rw [hget] at hqget
          obtain rfl := Option.some.inj hqget
          exact hg t ht
        · exact processStages_mono oracle mr i ph st i t
            (hprev q qh (by omega) hqget t ht)
      · exact hstages

lemma processChunk_inv (oracle : Oracle) (mr : Nat) (graph : List (List String))
    (huniq : (stagesOf graph).Nodup) (i : Nat) (st : PipeState)
    (hinv : PipeInv graph st) :
    PipeInv graph (processChunk oracle mr graph i st) := by
  have hphinv : PipeInv graph (processPhases oracle mr i graph st) :=
    processPhases_inv oracle mr graph i huniq graph 0 (List.drop_zero graph) st hinv
      (fun q ph hq _ => absurd hq (Nat.not_lt_zero q))
  rcases processChunk_cases oracle mr graph i st with
    ⟨_, he⟩ | ⟨_, _, he⟩ | ⟨_, hall, hlast, he⟩
  · rw [he]; exact hinv
  · rw [he]; exact hphinv
  · rw [he]
    obtain ⟨hrec1, hsafeI1, hsafeA1⟩ := hphinv
    have hbelow : ∀ j u, j ≤ i → u ∈ stagesOf graph →
        pairDone (processPhases oracle mr i graph st).checkpoint j u := by
      intro j u hj hu
      by_cases hji : j = i
      · subst hji
        obtain ⟨ph, hmem, hin⟩ := List.mem_flatten.mp hu
        exact hall ph hmem u hin
      · exact Or.inl (by rw [hlast]; omega)
    refine ⟨?_, ?_, ?_⟩
    · intro j u hu hd
      show Event.recordEv j u ∈ (processPhases oracle mr i graph st).events ++ [Event.advanceEv i]
      rcases advanceCp_subset (processPhases oracle mr i graph st).checkpoint i j u hd with hji | hd'
      · exact List.mem_append_left _ (hrec1 j u hu (hbelow j u (by omega) hu))
      · exact List.mem_append_left _ (hrec1 j u hu hd')
    · show InvokeSafe graph ((processPhases oracle mr i graph st).events ++ [Event.advanceEv i])
      refine invokeSafe_append graph _ _ hsafeI1 ?_
      intro i' s' hmem
      simp at hmem
    · show AdvanceSafe graph ((processPhases oracle mr i graph st).events ++ [Event.advanceEv i])
      refine advanceSafe_append graph _ _ hsafeA1 ?_
      intro i' hmem j s hj hs
      have h1 := Event.advanceEv.inj (List.mem_singleton.mp hmem)
      exact hrec1 j s hs (hbelow j s (by omega) hs)

lemma initState_inv (graph : List (List String)) : PipeInv graph initState := by
  refine ⟨?_, ?_, ?_⟩
  · intro j u _ hd
    rcases hd with hd | hd
    · exact absurd hd (by simp [initState, Checkpoint.empty]; omega)
    · simp [initState, Checkpoint.empty] at hd
  · intro pre post i s hsplit
    exact absurd (congrArg List.length hsplit) (by simp [initState]; omega)
  · intro pre post i hsplit
    exact absurd (congrArg List.length hsplit) (by simp [initState]; omega)

lemma runPipeline_inv (oracle : Oracle) (mr : Nat) (graph : List (List String))
    (huniq : (stagesOf graph).Nodup) :
    ∀ (chunks : List Chunk) (st : PipeState), PipeInv graph st →
      PipeInv graph (runPipeline oracle mr graph chunks st) := by
  intro chunks
  induction chunks with
  | nil => intro st hinv; exact hinv
  | cons c cs ih =>
      intro st hinv
      rw [runPipeline_cons]
      exact ih _ (processChunk_inv oracle mr graph huniq c.index st hinv)

lemma chain'_scanl {α β : Type _} (R : β → β → Prop) (f : β → α → β)
    (h : ∀ b a, R b (f b a)) : ∀ (l : List α) (b : β), List.Chain' R (List.scanl f b l) := by
  intro l
  induction l with
  | nil => intro b; simp [List.scanl_nil]
  | cons a l ih =>
      intro b
      rw [List.scanl_cons, List.singleton_append]
      refine List.chain'_cons'.mpr ⟨?_, ih (f b a)⟩
      intro y hy
      rw [List.head?_eq_getElem?, List.getElem?_scanl_zero] at hy
      obtain rfl := Option.mem_some_iff.mp hy
      exact h b a

/-- C1 (monotone, contiguous checkpoint): along any fresh run of the
pipeline, the checkpoint pointer `last_completed_chunk_index` never
decreases, and whenever `advance(i)` is performed, the completion of every
stage of every chunk at or below `i` was recorded strictly earlier — the
checkpoint is never advanced past a chunk with an incomplete stage, even if
a later chunk finished first. -/
theorem checkpoint_monotone_contiguous (oracle : Oracle) (mr : Nat)
    (graph : List (List String)) (chunks : List Chunk)
    (huniq : (stagesOf graph).Nodup) :
    List.Chain' (· ≤ ·) (checkpointTrace oracle mr graph chunks initState) ∧
    (∀ pre post i,
      (runPipeline oracle mr graph chunks initState).events =
        pre ++ Event.advanceEv i :: post →
      ∀ j s, j ≤ i → s ∈ stagesOf graph → Event.recordEv j s ∈ pre) := by
  constructor
  · unfold checkpointTrace
    rw [List.chain'_map]
    exact chain'_scanl _ _
      (fun st c => processChunk_lastCompleted_mono oracle mr graph c.index st)
      chunks initState
  · exact (runPipeline_inv oracle mr graph huniq chunks initState
      (initState_inv graph)).2.2

/-- Witness for C1: in a one-chunk, one-stage run the `advance(0)` event is
preceded by the recorded completion of stage `X` for chunk 0. -/
theorem checkpoint_monotone_contiguous_witness :
    Event.recordEv 0 "X" ∈ [Event.invokeEv 0 "X", Event.recordEv 0 "X"] :=
  (checkpoint_monotone_contiguous (allSuccess "ok") 0 [["X"]] [⟨0, 0, 1, ['a']⟩]
      (by decide)).2
    [Event.invokeEv 0 "X", Event.recordEv 0 "X"] [] 0 (by decide) 0 "X" (by decide) (by decide)

/-- C5 (phase ordering): in any fresh run, a stage of phase `p+1` is invoked
for chunk `i` only after every stage of phase `p` has a recorded completion
for chunk `i` strictly earlier in the event log. -/
theorem phase_ordering (oracle : Oracle) (mr : Nat)
    (graph : List (List String)) (chunks : List Chunk)
    (huniq : (stagesOf graph).Nodup) :
    ∀ pre post i s,
      (runPipeline oracle mr graph chunks initState).events =
        pre ++ Event.invokeEv i s :: post →
      ∀ p ph ph', graph[p]? = some ph → graph[p + 1]? = some ph' → s ∈ ph' →
      ∀ t ∈ ph, Event.recordEv i t ∈ pre :=
  (runPipeline_inv oracle mr graph huniq chunks initState (initState_inv graph)).2.1

/-- Witness for C5: with phases `{A}` then `{B}`, the invocation of `B` for
chunk 0 is preceded by the recorded completion of `A` for chunk 0. -/
theorem phase_ordering_witness :
    Event.recordEv 0 "A" ∈ [Event.invokeEv 0 "A", Event.recordEv 0 "A"] :=
  phase_ordering (allSuccess "ok") 0 [["A"], ["B"]] [⟨0, 0, 1, ['a']⟩] (by decide)
    [Event.invokeEv 0 "A", Event.recordEv 0 "A"] [Event.recordEv 0 "B", Event.advanceEv 0]
    0 "B" (by decide) 0 ["A"] ["B"] (by decide) (by decide) (by decide) "A" (by decide)

/-! ## Fault isolation -/

lemma processStages_pair_subset (oracle : Oracle) (mr i : Nat) :
    ∀ (L : List String) (st : PipeState) (j : Nat) (u : String),
      pairDone (processStages oracle mr i L st).checkpoint j u →
      pairDone st.checkpoint j u ∨ (j = i ∧ u ∈ L) := by
  intro L
  induction L with
  | nil => intro st j u h; exact Or.inl h
  | cons s L ih =>
      intro st j u h
      rw [processStages] at h
      rcases ih (processStage oracle mr i s st) j u h with h' | ⟨rfl, hu⟩
      · rcases processStage_pair_subset oracle mr i s st j u h' with h'' | ⟨rfl, rfl⟩
        · exact Or.inl h''
        · exact Or.inr ⟨rfl, List.mem_cons_self _ _⟩
      · exact Or.inr ⟨rfl, List.mem_cons_of_mem _ hu⟩

lemma processPhases_pair_subset (oracle : Oracle) (mr i : Nat) :
    ∀ (phs : List (List String)) (st : PipeState) (j : Nat) (u : String),
      pairDone (processPhases oracle mr i phs st).checkpoint j u →
      pairDone st.checkpoint j u ∨ (j = i ∧ u ∈ stagesOf phs) := by
  intro phs
  induction phs with
  | nil => intro st j u h; exact Or.inl h
  | cons ph rest ih =>
      intro st j u h
      rw [processPhases] at h
      have hsub : pairDone (processStages oracle mr i ph st).checkpoint j u →
          pairDone st.checkpoint j u ∨ (j = i ∧ u ∈ stagesOf (ph :: rest)) := by
        intro h'
        rcases processStages_pair_subset oracle mr i ph st j u h' with h'' | ⟨rfl, hu⟩
        · exact Or.inl h''
        · exact Or.inr ⟨rfl, by
            show u ∈ (ph :: rest).flatten
            rw [List.flatten_cons]
            exact List.mem_append_left _ hu⟩
      split at h
      · rcases ih (processStages oracle mr i ph st) j u h with h' | ⟨rfl, hu⟩
        · exact hsub h'
        · exact Or.inr ⟨rfl, by
            show u ∈ (ph :: rest).flatten
            rw [List.flatten_cons]
            exact List.mem_append_right _ hu⟩
      · exact hsub h

lemma processChunk_pair_subset (oracle : Oracle) (mr : Nat) (graph : List (List String))
    (i : Nat) (st : PipeState) (j : Nat) (u : String)
    (h : pairDone (processChunk oracle mr graph i st).checkpoint j u) :
    pairDone st.checkpoint j u ∨ (j : Int) ≤ (i : Int) := by
  rcases processChunk_cases oracle mr graph i st with ⟨_, he⟩ | ⟨_, _, he⟩ | ⟨_, _, _, he⟩
  · rw [he] at h
    exact Or.inl h
  · rw [he] at h
    rcases processPhases_pair_subset oracle mr i graph st j u h with h' | ⟨rfl, _⟩
    · exact Or.inl h'
    · exact Or.inr (by omega)
  · rw [he] at h
    rcases advanceCp_subset _ i j u h with h' | h'
    · exact Or.inr h'
    · rcases processPhases_pair_subset oracle mr i graph st j u h' with h'' | ⟨rfl, _⟩
      · exact Or.inl h''
      · exact Or.inr (by omega)

lemma initState_not_done (j : Nat) (u : String) : ¬ pairDone initState.checkpoint j u := by
  intro h
  rcases h with h | h
  · exact absurd h (by simp [initState, Checkpoint.empty]; omega)
  · simp [initState, Checkpoint.empty] at h

lemma runPipeline_mono (oracle : Oracle) (mr : Nat) (graph : List (List String)) :
    ∀ (chunks : List Chunk) (st : PipeState) (j : Nat) (u : String),
      pairDone st.checkpoint j u →
      pairDone (runPipeline oracle mr graph chunks st).checkpoint j u := by
  intro chunks
  induction chunks with
  | nil => intro st j u h; exact h
  | cons c cs ih =>
      intro st j u h
      rw [runPipeline_cons]
      exact ih _ j u (processChunk_mono oracle mr graph c.index st j u h)

lemma processStage_success (oracle : Oracle) (mr i : Nat) (s : String) (st : PipeState)
    (o : String) (hsucc : oracle i s 0 = CallOutcome.success o) :
    pairDone (processStage oracle mr i s st).checkpoint i s ∧
    (processStage oracle mr i s st).failures = st.failures := by
  unfold processStage
  split
  · exact ⟨by assumption, rfl⟩
  · dsimp only
    rw [show attemptLoop oracle i s (mr + 1) 0 "" st =
      ({ st with events := st.events ++ [Event.invokeEv i s], clock := st.clock + 1 },
        some o, 1, "") from by simp [attemptLoop, hsucc]]
    exact ⟨recordCompletion_done _ i s, rfl⟩

lemma processStage_fatal (oracle : Oracle) (mr i : Nat) (s : String) (st : PipeState)
    (err : String) (hfat : oracle i s 0 = CallOutcome.fatal err)
    (hnd : ¬ pairDone st.checkpoint i s) :
    (processStage oracle mr i s st).checkpoint = st.checkpoint ∧
    (processStage oracle mr i s st).failures =
      st.failures ++ [{ chunkIndex := i, stageName := s, attempts := 1, lastError := err }] := by
  unfold processStage
  rw [if_neg hnd]
  dsimp only
  rw [show attemptLoop oracle i s (mr + 1) 0 "" st =
    ({ st with events := st.events ++ [Event.invokeEv i s], clock := st.clock + 1 },
      none, 1, err) from by simp [attemptLoop, hfat]]
  exact ⟨rfl, rfl⟩

lemma processStages_success (oracle : Oracle) (mr i : Nat) :
    ∀ (L : List String) (st : PipeState),
      (∀ s ∈ L, ∃ o, oracle i s 0 = CallOutcome.success o) →
      (∀ s ∈ L, pairDone (processStages oracle mr i L st).checkpoint i s) ∧
      (processStages oracle mr i L st).failures = st.failures := by
  intro L
  induction L with
  | nil => intro st _; exact ⟨fun s hs => absurd hs (List.not_mem_nil s), rfl⟩
  | cons s L ih =>
      intro st hsucc
      obtain ⟨o, ho⟩ := hsucc s (List.mem_cons_self _ _)
      obtain ⟨hd, hfl⟩ := processStage_success oracle mr i s st o ho
      obtain ⟨ihd, ihfl⟩ := ih (processStage oracle mr i s st)
        (fun u hu => hsucc u (List.mem_cons_of_mem _ hu))
      refine ⟨?_, by rw [processStages, ihfl, hfl]⟩
      intro u hu
      rw [processStages]
      rcases List.mem_cons.mp hu with rfl | hu
      · exact processStages_mono oracle mr i L _ i u hd
      · exact ihd u hu

lemma processPhases_success (oracle : Oracle) (mr i : Nat) :
    ∀ (phs : List (List String)) (st : PipeState),
      (∀ ph ∈ phs, ∀ s ∈ ph, ∃ o, oracle i s 0 = CallOutcome.success o) →
      (∀ ph ∈ phs, ∀ s ∈ ph, pairDone (processPhases oracle mr i phs st).checkpoint i s) ∧
      (processPhases oracle mr i phs st).failures = st.failures := by
  intro phs
  induction phs with
  | nil => intro st _; exact ⟨fun ph hph => absurd hph (List.not_mem_nil ph), rfl⟩
  | cons ph rest ih =>
      intro st hsucc
      obtain ⟨hd, hfl⟩ := processStages_success oracle mr i ph st
        (hsucc ph (List.mem_cons_self _ _))
      obtain ⟨ihd, ihfl⟩ := ih (processStages oracle mr i ph st)
        (fun ph' hph' => hsucc ph' (List.mem_cons_of_mem _ hph'))
      rw [processPhases, if_pos hd]
      refine ⟨?_, by rw [ihfl, hfl]⟩
      intro ph' hph' s hs
      rcases List.mem_cons.mp hph' with rfl | hph'
      · exact processPhases_mono oracle mr i rest _ i s (hd s hs)
      · exact ihd ph' hph' s hs

lemma processChunk_success (oracle : Oracle) (mr : Nat) (graph : List (List String))
    (i : Nat) (st : PipeState)
    (hsucc : ∀ s ∈ stagesOf graph, ∃ o, oracle i s 0 = CallOutcome.success o)
    (hns : ¬ (i : Int) ≤ st.checkpoint.lastCompletedChunkIndex) :
    (∀ s ∈ stagesOf graph, pairDone (processChunk oracle mr graph i st).checkpoint i s) ∧
    (processChunk oracle mr graph i st).failures = st.failures := by
  obtain ⟨hd, hfl⟩ := processPhases_success oracle mr i graph st
    (fun ph hph s hs => hsucc s (List.mem_flatten_of_mem hph hs))
  rcases processChunk_cases oracle mr graph i st with ⟨hsk, _⟩ | ⟨_, _, he⟩ | ⟨_, _, hlast, he⟩
  · exact absurd hsk hns
  · rw [he]
    refine ⟨?_, hfl⟩
    intro s hs
    obtain ⟨ph, hph, hin⟩ := List.mem_flatten.mp hs
    exact hd ph hph s hin
  · rw [he]
    refine ⟨?_, hfl⟩
    intro s hs
    obtain ⟨ph, hph, hin⟩ := List.mem_flatten.mp hs
    exact advanceCp_mono _ i (by omega) i s (hd ph hph s hin)

lemma processChunk_no_advance (oracle : Oracle) (mr : Nat) (graph : List (List String))
    (i : Nat) (st : PipeState)
    (hns : ¬ (i : Int) ≤ st.checkpoint.lastCompletedChunkIndex)
    (hne : st.checkpoint.lastCompletedChunkIndex ≠ (i : Int) - 1) :
    processChunk oracle mr graph i st = processPhases oracle mr i graph st := by
  rcases processChunk_cases oracle mr graph i st with ⟨hsk, _⟩ | ⟨_, _, he⟩ | ⟨_, _, hlast, _⟩
  · exact absurd hsk hns
  · exact he
  · rw [processPhases_lastCompleted] at hlast
    exact absurd hlast hne

lemma processStages_mixed (oracle : Oracle) (mr i : Nat) (s₀ err : String)
    (hfat : oracle i s₀ 0 = CallOutcome.fatal err) :
    ∀ (L : List String) (st : PipeState),
      L.Nodup →
      (∀ s ∈ L, s ≠ s₀ → ∃ o, oracle i s 0 = CallOutcome.success o) →
      ¬ pairDone st.checkpoint i s₀ →
      (∀ s ∈ L, s ≠ s₀ → pairDone (processStages oracle mr i L st).checkpoint i s) ∧
      ¬ pairDone (processStages oracle mr i L st).checkpoint i s₀ ∧
      (s₀ ∈ L → (processStages oracle mr i L st).failures = st.failures ++
        [{ chunkIndex := i, stageName := s₀, attempts := 1, lastError := err }]) ∧
      (s₀ ∉ L → (processStages oracle mr i L st).failures = st.failures) := by
  intro L
  induction L with
  | nil =>
      intro st _ _ hnd
      exact ⟨fun s hs => absurd hs (List.not_mem_nil s), hnd,
        fun h => absurd h (List.not_mem_nil s₀), fun _ => rfl⟩
  | cons s L ih =>
      intro st hnodup hsucc hnd
      by_cases hse : s = s₀
      · subst hse
        obtain ⟨hcp, hfl⟩ := processStage_fatal oracle mr i s st err hfat hnd
        have hsL : s ∉ L := (List.nodup_cons.mp hnodup).1
        obtain ⟨ihd, ihfl⟩ := processStages_success oracle mr i L (processStage oracle mr i s st)
          (fun u hu => hsucc u (List.mem_cons_of_mem _ hu) (fun he => hsL (he ▸ hu)))
        refine ⟨?_, ?_, ?_, ?_⟩
        · intro u hu hne
          rw [processStages]
          rcases List.mem_cons.mp hu with rfl | hu
          · exact absurd rfl hne
          · exact ihd u hu
        · rw [processStages]
          intro h
          rcases processStages_pair_subset oracle mr i L _ i s h with h' | ⟨_, hu⟩
          · rw [hcp] at h'
            exact hnd h'
          · exact hsL hu
        · intro _
          rw [processStages, ihfl, hfl]
        · intro h
          exact absurd (List.mem_cons_self _ _) h
      · obtain ⟨o, ho⟩ := hsucc s (List.mem_cons_self _ _) hse
        obtain ⟨hd, hfl⟩ := processStage_success oracle mr i s st o ho
        have hnd1 : ¬ pairDone (processStage oracle mr i s st).checkpoint i s₀ := by
          intro h
          rcases processStage_pair_subset oracle mr i s st i s₀ h with h' | ⟨_, h2⟩
          · exact hnd h'
          · exact hse h2.symm
        obtain ⟨ihd, ihnd, ihmem, ihnmem⟩ := ih (processStage oracle mr i s st)
          (List.nodup_cons.mp hnodup).2
          (fun u hu hne => hsucc u (List.mem_cons_of_mem _ hu) hne) hnd1
        refine ⟨?_, ?_, ?_, ?_⟩
        · intro u hu hne
          rw [processStages]
          rcases List.mem_cons.mp hu with rfl | hu
          · exact processStages_mono oracle mr i L _ i u hd
          · exact ihd u hu hne
        · rw [processStages]
          exact ihnd
        · intro hm
          rcases List.mem_cons.mp hm with rfl | hm
          · exact absurd rfl hse
          · rw [processStages, ihmem hm, hfl]
        · intro hm
          rw [processStages, ihnmem (fun h => hm (List.mem_cons_of_mem _ h)), hfl]

lemma processPhases_fatal (oracle : Oracle) (mr i : Nat) (s₀ err : String)
    (hfat : oracle i s₀ 0 = CallOutcome.fatal err) :
    ∀ (pre : List (List String)) (ph₀ : List String) (rest : List (List String))
      (st : PipeState),
      (∀ ph ∈ pre, ∀ s ∈ ph, ∃ o, oracle i s 0 = CallOutcome.success o) →
      (∀ ph ∈ pre, s₀ ∉ ph) →
      (∀ s ∈ ph₀, s ≠ s₀ → ∃ o, oracle i s 0 = CallOutcome.success o) →
      ph₀.Nodup → s₀ ∈ ph₀ →
      ¬ pairDone st.checkpoint i s₀ →
      (processPhases oracle mr i (pre ++ ph₀ :: rest) st).failures = st.failures ++
        [{ chunkIndex := i, stageName := s₀, attempts := 1, lastError := err }] ∧
      (∀ ph ∈ pre, ∀ t ∈ ph,
        pairDone (processPhases oracle mr i (pre ++ ph₀ :: rest) st).checkpoint i t) ∧
      (∀ t ∈ ph₀, t ≠ s₀ →
        pairDone (processPhases oracle mr i (pre ++ ph₀ :: rest) st).checkpoint i t) ∧
      ¬ pairDone (processPhases oracle mr i (pre ++ ph₀ :: rest) st).checkpoint i s₀ := by
  intro pre
  induction pre with
  | nil =>
      intro ph₀ rest st _ _ hsucc hnod hmem hnd
      rw [List.nil_append, processPhases]
      obtain ⟨hdones, hnd', hmemf, _⟩ :=
        processStages_mixed oracle mr i s₀ err hfat ph₀ st hnod hsucc hnd
      rw [if_neg (fun hall => hnd' (hall s₀ hmem))]
      exact ⟨hmemf hmem, fun ph hph => absurd hph (List.not_mem_nil ph), hdones, hnd'⟩
  | cons ph pre' ih =>
      intro ph₀ rest st hpre hs₀pre hsucc hnod hmem hnd
      rw [List.cons_append, processPhases]
      obtain ⟨hdph, hfl1⟩ := processStages_success oracle mr i ph st
        (hpre ph (List.mem_cons_self _ _))
      have hnd1 : ¬ pairDone (processStages oracle mr i ph st).checkpoint i s₀ := by
        intro h
        rcases processStages_pair_subset oracle mr i ph st i s₀ h with h' | ⟨_, hu⟩
        · exact hnd h'
        · exact hs₀pre ph (List.mem_cons_self _ _) hu
      obtain ⟨ihfl, ihpre, ihph₀, ihnd⟩ := ih ph₀ rest (processStages oracle mr i ph st)
        (fun ph' hph' => hpre ph' (List.mem_cons_of_mem _ hph'))
        (fun ph' hph' => hs₀pre ph' (List.mem_cons_of_mem _ hph'))
        hsucc hnod hmem hnd1
      rw [if_pos hdph]
      refine ⟨by rw [ihfl, hfl1], ?_, ihph₀, ihnd⟩
      intro ph' hph' t ht
      rcases List.mem_cons.mp hph' with rfl | hph'
      · exact processPhases_mono oracle mr i (pre' ++ ph₀ :: rest) _ i t (hdph t ht)
      · exact ihpre ph' hph' t ht

lemma processChunk_fatal (oracle : Oracle) (mr : Nat)
    (gpre : List (List String)) (ph₀ : List String) (grest : List (List String))
    (i : Nat) (s₀ err : String)
    (hfat : oracle i s₀ 0 = CallOutcome.fatal err)
    (hpre : ∀ ph ∈ gpre, ∀ s ∈ ph, ∃ o, oracle i s 0 = CallOutcome.success o)
    (hs₀pre : ∀ ph ∈ gpre, s₀ ∉ ph)
    (hsucc : ∀ s ∈ ph₀, s ≠ s₀ → ∃ o, oracle i s 0 = CallOutcome.success o)
    (hnod : ph₀.Nodup) (hmem : s₀ ∈ ph₀)
    (st : PipeState)
    (hns : ¬ (i : Int) ≤ st.checkpoint.lastCompletedChunkIndex)
    (hnd : ¬ pairDone st.checkpoint i s₀) :
    (processChunk oracle mr (gpre ++ ph₀ :: grest) i st).failures = st.failures ++
      [{ chunkIndex := i, stageName := s₀, attempts := 1, lastError := err }] ∧
    (∀ ph ∈ gpre, ∀ t ∈ ph,
      pairDone (processChunk oracle mr (gpre ++ ph₀ :: grest) i st).checkpoint i t) ∧
    (∀ t ∈ ph₀, t ≠ s₀ →
      pairDone (processChunk oracle mr (gpre ++ ph₀ :: grest) i st).checkpoint i t) ∧
    ¬ pairDone (processChunk oracle mr (gpre ++ ph₀ :: grest) i st).checkpoint i s₀ ∧
    (processChunk oracle mr (gpre ++ ph₀ :: grest) i st).checkpoint.lastCompletedChunkIndex =
      st.checkpoint.lastCompletedChunkIndex ∧
    (∀ j u, pairDone (processChunk oracle mr (gpre ++ ph₀ :: grest) i st).checkpoint j u →
      pairDone st.checkpoint j u ∨ j = i) := by
  obtain ⟨hfl, hprd, hphd, hndp⟩ := processPhases_fatal oracle mr i s₀ err hfat
    gpre ph₀ grest st hpre hs₀pre hsucc hnod hmem hnd
  have he : processChunk oracle mr (gpre ++ ph₀ :: grest) i st =
      processPhases oracle mr i (gpre ++ ph₀ :: grest) st := by
    rcases processChunk_cases oracle mr (gpre ++ ph₀ :: grest) i st with
      ⟨hsk, _⟩ | ⟨_, _, he⟩ | ⟨_, hall, _, _⟩
    · exact absurd hsk hns
    · exact he
    · exact absurd (hall (ph₀) (by
        exact List.mem_append_right _ (List.mem_cons_self _ _)) s₀ hmem) hndp
  rw [he]
  refine ⟨hfl, hprd, hphd, hndp, processPhases_lastCompleted oracle mr i _ st, ?_⟩
  intro j u h
  rcases processPhases_pair_subset oracle mr i _ st j u h with h' | ⟨rfl, _⟩
  · exact Or.inl h'
  · exact Or.inr rfl

lemma runPipeline_success_seg (oracle : Oracle) (mr : Nat) (graph : List (List String)) :
    ∀ (chunks : List Chunk) (k : Nat) (st : PipeState),
      chunks.map Chunk.index = List.range' k chunks.length →
      (∀ j, k ≤ j → j < k + chunks.length →
        ∀ s ∈ stagesOf graph, ∃ o, oracle j s 0 = CallOutcome.success o) →
      st.checkpoint.lastCompletedChunkIndex = (k : Int) - 1 →
      (runPipeline oracle mr graph chunks st).checkpoint.lastCompletedChunkIndex =
        (k : Int) + chunks.length - 1 ∧
      (runPipeline oracle mr graph chunks st).failures = st.failures ∧
      (∀ j u, pairDone (runPipeline oracle mr graph chunks st).checkpoint j u →
        pairDone st.checkpoint j u ∨ (j : Int) ≤ (k : Int) + chunks.length - 1) := by
  intro chunks
  induction chunks with
  | nil =>
      intro k st _ _ hlast
      refine ⟨?_, rfl, fun j u h => Or.inl h⟩
      simp only [runPipeline, List.foldl_nil, List.length_nil]
      rw [hlast]
      push_cast
      ring
  | cons c cs ih =>
      intro k st hmap hsucc hlast
      simp only [List.map_cons, List.length_cons, List.range'_succ] at hmap
      obtain ⟨hc, hcs⟩ := List.cons.inj hmap
      rw [runPipeline_cons, hc]
      have hns : ¬ (k : Int) ≤ st.checkpoint.lastCompletedChunkIndex := by omega
      obtain ⟨_, hfl1⟩ := processChunk_success oracle mr graph k st
        (hsucc k (Nat.le_refl k) (by simp only [List.length_cons]; omega)) hns
      have hdone := processChunk_complete oracle mr graph k st hlast hfl1
      obtain ⟨ihlast, ihfl, ihsub⟩ := ih (k + 1) (processChunk oracle mr graph k st) hcs
        (fun j h1 h2 s hs => hsucc j (by omega) (by simp only [List.length_cons]; omega) s hs)
        (by rw [hdone]; push_cast; ring)
      refine ⟨?_, by rw [ihfl, hfl1], ?_⟩
      · rw [ihlast]
        simp only [List.length_cons]
        push_cast
        ring
      · intro j u h
        rcases ihsub j u h with h' | h'
        · rcases processChunk_pair_subset oracle mr graph k st j u h' with h'' | h''
          · exact Or.inl h''
          · exact Or.inr (by simp only [List.length_cons]; push_cast; omega)
        · exact Or.inr (by simp only [List.length_cons] at h' ⊢; push_cast at h' ⊢; omega)

lemma runPipeline_success_frozen (oracle : Oracle) (mr : Nat) (graph : List (List String)) :
    ∀ (chunks : List Chunk) (k : Nat) (st : PipeState),
      chunks.map Chunk.index = List.range' k chunks.length →
      (∀ j, k ≤ j → j < k + chunks.length →
        ∀ s ∈ stagesOf graph, ∃ o, oracle j s 0 = CallOutcome.success o) →
      st.checkpoint.lastCompletedChunkIndex < (k : Int) - 1 →
      (runPipeline oracle mr graph chunks st).checkpoint.lastCompletedChunkIndex =
        st.checkpoint.lastCompletedChunkIndex ∧
      (runPipeline oracle mr graph chunks st).failures = st.failures ∧
      (∀ j, k ≤ j → j < k + chunks.length → ∀ t ∈ stagesOf graph,
        pairDone (runPipeline oracle mr graph chunks st).checkpoint j t) ∧
      (∀ j u, pairDone (runPipeline oracle mr graph chunks st).checkpoint j u →
        pairDone st.checkpoint j u ∨ k ≤ j) ∧
      (∀ j u, pairDone st.checkpoint j u →
        pairDone (runPipeline oracle mr graph chunks st).checkpoint j u) := by
  intro chunks
  induction chunks with
  | nil =>
      intro k st _ _ _
      refine ⟨rfl, rfl, fun j h1 h2 => ?_, fun j u h => Or.inl h, fun j u h => h⟩
      simp only [List.length_nil] at h2
      exact absurd h1 (by omega)
  | cons c cs ih =>
      intro k st hmap hsucc hlast
      simp only [List.map_cons, List.length_cons, List.range'_succ] at hmap
      obtain ⟨hc, hcs⟩ := List.cons.inj hmap
      rw [runPipeline_cons, hc]
      have hns : ¬ (k : Int) ≤ st.checkpoint.lastCompletedChunkIndex := by omega
      have hne : st.checkpoint.lastCompletedChunkIndex ≠ (k : Int) - 1 := by omega
      have heq := processChunk_no_advance oracle mr graph k st hns hne
      obtain ⟨hdall, hfl1⟩ := processPhases_success oracle mr k graph st
        (fun ph hph s hs => hsucc k (Nat.le_refl k) (by simp only [List.length_cons]; omega) s
          (List.mem_flatten_of_mem hph hs))
      have hlast1 : (processChunk oracle mr graph k st).checkpoint.lastCompletedChunkIndex =
          st.checkpoint.lastCompletedChunkIndex := by
        rw [heq, processPhases_lastCompleted]
      obtain ⟨ihlast, ihfl, ihd, ihsub, ihmono⟩ := ih (k + 1) (processChunk oracle mr graph k st)
        hcs (fun j h1 h2 s hs => hsucc j (by omega) (by simp only [List.length_cons]; omega) s hs)
        (by rw [hlast1]; push_cast; omega)
      refine ⟨by rw [ihlast, hlast1], by rw [ihfl, heq, hfl1], ?_, ?_, ?_⟩
      · intro j h1 h2 t ht
        by_cases hjk : j = k
        · subst hjk
          refine ihmono j t ?_
          rw [heq]
          obtain ⟨ph, hph, hin⟩ := List.mem_flatten.mp ht
          exact hdall ph hph t hin
        · exact ihd j (by omega) (by simp only [List.length_cons] at h2 ⊢; omega) t ht
      · intro j u h
        rcases ihsub j u h with h' | h'
        · rw [heq] at h'
          rcases processPhases_pair_subset oracle mr k graph st j u h' with h'' | ⟨rfl, _⟩
          · exact Or.inl h''
          · exact Or.inr (Nat.le_refl _)
        · exact Or.inr (by omega)
      · intro j u h
        exact ihmono j u (processChunk_mono oracle mr graph k st j u h)

/-- C7 (fault isolation): with an oracle that fails fatally exactly at the
pair `(i₀, s₀)` — `s₀` sitting in phase `ph₀` of the graph — a fresh run
over chunks `0..n-1` reports exactly one permanent failure, carrying the
chunk index, stage name, attempt count and last error; every sibling stage
of `s₀`'s phase and every earlier phase of chunk `i₀` still completes;
every other chunk completes all its stages; and only the failed pair itself
is left incomplete. -/
theorem fault_isolation (mr : Nat) (gpre : List (List String)) (ph₀ : List String)
    (grest : List (List String)) (s₀ err out : String) (n i₀ : Nat)
    (chunks : List Chunk)
    (huniq : (stagesOf (gpre ++ ph₀ :: grest)).Nodup)
    (hs₀ : s₀ ∈ ph₀)
    (hidx : chunks.map Chunk.index = List.range n)
    (hi₀ : i₀ < n) :
    (runPipeline (fatalAt i₀ s₀ err out) mr (gpre ++ ph₀ :: grest) chunks
        initState).failures =
      [{ chunkIndex := i₀, stageName := s₀, attempts := 1, lastError := err }] ∧
    (∀ t ∈ ph₀, t ≠ s₀ →
      pairDone (runPipeline (fatalAt i₀ s₀ err out) mr (gpre ++ ph₀ :: grest) chunks
        initState).checkpoint i₀ t) ∧
    (∀ ph ∈ gpre, ∀ t ∈ ph,
      pairDone (runPipeline (fatalAt i₀ s₀ err out) mr (gpre ++ ph₀ :: grest) chunks
        initState).checkpoint i₀ t) ∧
    (∀ j, j < n → j ≠ i₀ → ∀ t ∈ stagesOf (gpre ++ ph₀ :: grest),
      pairDone (runPipeline (fatalAt i₀ s₀ err out) mr (gpre ++ ph₀ :: grest) chunks
        initState).checkpoint j t) ∧
    ¬ pairDone (runPipeline (fatalAt i₀ s₀ err out) mr (gpre ++ ph₀ :: grest) chunks
        initState).checkpoint i₀ s₀ := by
  have horacle_ne : ∀ j, j ≠ i₀ → ∀ s a,
      fatalAt i₀ s₀ err out j s a = CallOutcome.success out := by
    intro j hj s a
    unfold fatalAt
    rw [if_neg (fun h => hj h.1)]
  have horacle_s : ∀ s, s ≠ s₀ → ∀ a,
      fatalAt i₀ s₀ err out i₀ s a = CallOutcome.success out := by
    intro s hsne a
    unfold fatalAt
    rw [if_neg (fun h => hsne h.2)]
  have horacle_f : fatalAt i₀ s₀ err out i₀ s₀ 0 = CallOutcome.fatal err := by
    unfold fatalAt
    rw [if_pos ⟨rfl, rfl⟩]
  have hflat : stagesOf (gpre ++ ph₀ :: grest) =
      stagesOf gpre ++ (ph₀ ++ stagesOf grest) := by
    show (gpre ++ ph₀ :: grest).flatten = _
    rw [List.flatten_append, List.flatten_cons]
    rfl
  have huniq' : (stagesOf gpre ++ (ph₀ ++ stagesOf grest)).Nodup := hflat ▸ huniq
  have hdisj := List.disjoint_of_nodup_append huniq'
  have hnodph : ph₀.Nodup :=
    (List.nodup_append.mp (List.nodup_append.mp huniq').2.1).1
  have hs₀pre : ∀ ph ∈ gpre, s₀ ∉ ph := fun ph hph hmem' =>
    hdisj (List.mem_flatten_of_mem hph hmem') (List.mem_append_left _ hs₀)
  have hpre : ∀ ph ∈ gpre, ∀ s ∈ ph,
      ∃ o, fatalAt i₀ s₀ err out i₀ s 0 = CallOutcome.success o := by
    intro ph hph s hsm
    exact ⟨out, horacle_s s (fun he => hs₀pre ph hph (he ▸ hsm)) 0⟩
  have hsuccph : ∀ s ∈ ph₀, s ≠ s₀ →
      ∃ o, fatalAt i₀ s₀ err out i₀ s 0 = CallOutcome.success o :=
    fun s _ hsne => ⟨out, horacle_s s hsne 0⟩
  -- split the chunk sequence at the failing chunk
  have hrange : List.range n = List.range' 0 i₀ ++ List.range' i₀ (n - i₀) := by
    have h := List.range'_append_1 0 i₀ (n - i₀)
    rw [Nat.zero_add, show n - i₀ + i₀ = n from by omega] at h
    rw [List.range_eq_range']
    exact h.symm
  rw [hrange] at hidx
  obtain ⟨A, C, hchunks, hmapA, hmapC⟩ := List.map_eq_append_iff.mp hidx
  have hAlen : A.length = i₀ := by
    have := congrArg List.length hmapA
    simpa using this
  cases C with
  | nil =>
      exfalso
      have := congrArg List.length hmapC
      simp at this
      omega
  | cons c₀ B =>
      have hmapC' : c₀.index :: B.map Chunk.index = List.range' i₀ (n - i₀) := by
        simpa using hmapC
      rw [show n - i₀ = (n - i₀ - 1) + 1 from by omega, List.range'_succ] at hmapC'
      obtain ⟨hc₀, hmapB⟩ := List.cons.inj hmapC'
      have hBlen : B.length = n - i₀ - 1 := by
        have := congrArg List.length hmapB
        simpa using this
      subst hchunks
      have hsplit : runPipeline (fatalAt i₀ s₀ err out) mr (gpre ++ ph₀ :: grest)
          (A ++ c₀ :: B) initState =
          runPipeline (fatalAt i₀ s₀ err out) mr (gpre ++ ph₀ :: grest) B
            (processChunk (fatalAt i₀ s₀ err out) mr (gpre ++ ph₀ :: grest) c₀.index
              (runPipeline (fatalAt i₀ s₀ err out) mr (gpre ++ ph₀ :: grest) A initState)) := by
        unfold runPipeline
        rw [List.foldl_append, List.foldl_cons]
      rw [hsplit, hc₀]
      -- regime 1: all chunks below i₀ succeed and advance
      obtain ⟨hlastA, hflA, hsubA⟩ := runPipeline_success_seg
        (fatalAt i₀ s₀ err out) mr (gpre ++ ph₀ :: grest) A 0 initState
        (by rw [hmapA, hAlen])
        (fun j _ hj s _ => ⟨out, horacle_ne j (by omega) s 0⟩)
        (by decide)
      rw [hAlen] at hlastA hsubA
      have hflA' : (runPipeline (fatalAt i₀ s₀ err out) mr (gpre ++ ph₀ :: grest) A
          initState).failures = [] := hflA
      have hndA : ¬ pairDone (runPipeline (fatalAt i₀ s₀ err out) mr
          (gpre ++ ph₀ :: grest) A initState).checkpoint i₀ s₀ := by
        intro h
        rcases hsubA i₀ s₀ h with h' | h'
        · exact initState_not_done i₀ s₀ h'
        · omega
      have hnsA : ¬ (i₀ : Int) ≤ (runPipeline (fatalAt i₀ s₀ err out) mr
          (gpre ++ ph₀ :: grest) A initState).checkpoint.lastCompletedChunkIndex := by
        rw [hlastA]
        omega
      -- the failing chunk
      obtain ⟨hflB, hpreB, hphB, hndB, hlastB, hsubB⟩ := processChunk_fatal
        (fatalAt i₀ s₀ err out) mr gpre ph₀ grest i₀ s₀ err horacle_f hpre hs₀pre
        hsuccph hnodph hs₀
        (runPipeline (fatalAt i₀ s₀ err out) mr (gpre ++ ph₀ :: grest) A initState)
        hnsA hndA
      rw [hflA', List.nil_append] at hflB
      rw [hlastA] at hlastB
      -- regime 2: later chunks succeed but the checkpoint is frozen
      obtain ⟨hlastF, hflF, hdF, hsubF, hmonoF⟩ := runPipeline_success_frozen
        (fatalAt i₀ s₀ err out) mr (gpre ++ ph₀ :: grest) B (i₀ + 1)
        (processChunk (fatalAt i₀ s₀ err out) mr (gpre ++ ph₀ :: grest) i₀
          (runPipeline (fatalAt i₀ s₀ err out) mr (gpre ++ ph₀ :: grest) A initState))
        (by rw [hmapB, hBlen])
        (fun j hj _ s _ => ⟨out, horacle_ne j (by omega) s 0⟩)
        (by rw [hlastB]; push_cast; omega)
      rw [hlastB] at hlastF
      rw [hBlen] at hdF
      refine ⟨by rw [hflF, hflB], ?_, ?_, ?_, ?_⟩
      · intro t ht htne
        exact hmonoF i₀ t (hphB t ht htne)
      · intro ph hph t ht
        exact hmonoF i₀ t (hpreB ph hph t ht)
      · intro j hj hjne t _
        by_cases hlt : j < i₀
        · exact Or.inl (by rw [hlastF]; push_cast; omega)
        · exact hdF j (by omega) (by omega) t (by assumption)
      · intro h
        rcases hsubF i₀ s₀ h with h' | h'
        · exact hndB h'
        · omega

/-- Witness for C7: two chunks, graph `{A} ; {B, C} ; {D}` with a fatal
failure at `(0, C)`: the run reports exactly `⟨0, C, 1, boom⟩`. -/
theorem fault_isolation_witness :
    (runPipeline (fatalAt 0 "C" "boom" "ok") 1 ([["A"]] ++ ["B", "C"] :: [["D"]])
        [⟨0, 0, 2, ['x', 'y']⟩, ⟨1, 2, 2, ['z', 'w']⟩] initState).failures =
      [{ chunkIndex := 0, stageName := "C", attempts := 1, lastError := "boom" }] :=
  (fault_isolation 1 [["A"]] ["B", "C"] [["D"]] "C" "boom" "ok" 2 0
    [⟨0, 0, 2, ['x', 'y']⟩, ⟨1, 2, 2, ['z', 'w']⟩]
    (by decide) (by decide) (by decide) (by decide)).1

end Cookbook
